import Mathlib

/-!
# Verification of the DeskFlow MCP workspace-index aggregation layer

Shallow embedding of the aggregation / traversal functions of the
`deskflow-mcp` repository (files `tools/desktops.py`, `tools/search.py`,
`auth.py`) together with proofs about them.

Conventions:

* Python dict rows fetched from the backend become Lean structures; a
  nullable column becomes `Option`.
* The backend tables are explicit `List`s of rows; a filtered query is a
  `List.filter` over the table in table order.
* Python sets used only for membership (`visited`, `seen_ids`, `seen_conn`)
  are modelled as `List`s grown by append-if-new; the code never depends on
  their iteration order except through backend queries, which are
  membership-only (`in_` filters).
* The unbounded recursion of `build_tree` (search.py, no depth ceiling) is
  embedded with an explicit `fuel` parameter; termination of the Python
  recursion corresponds to the fuel-stability theorems proved below.
-/

namespace Deskflow

/-- A row of the `desktops` table as fetched by `get_desktop_hierarchy` /
`get_workspace_index` (`select id, name, parent_id, position_order, ...`,
plus the `workspace_id` column used in the `eq` filter).

The `level` field models the optional `"level"` dict key: the selected rows
do not carry it (`none`); `add_level` writes it (`d["level"] = level`). -/
structure Desktop where
  id : String
  workspace_id : String
  name : String
  parent_id : Option String
  position_order : Int
  level : Option Nat := none
  deriving DecidableEq, Repr

/-- A row of the `notes` table as fetched by step 3 of `get_workspace_index`
(`select id, title, desktop_id, ..., z_index, ...[, content]`). -/
structure NoteRec where
  id : String
  title : String
  desktop_id : String
  z_index : Int
  color : Option String := none
  updated_at : Option String := none
  content : Option String := none
  deriving DecidableEq, Repr

/-- The reduced note object placed into `notes_by_desktop` by
`get_workspace_index` (`{id, title, color, updated_at, content}`). -/
structure NoteLite where
  id : String
  title : String
  color : Option String
  updated_at : Option String
  content : Option String
  deriving DecidableEq, Repr

/-- A row of the `folders` table as fetched by step 4 of
`get_workspace_index`. -/
structure FolderRec where
  id : String
  name : String
  desktop_id : String
  target_desktop_id : Option String := none
  icon : Option String := none
  color : Option String := none
  deriving DecidableEq, Repr

/-- The reduced folder object placed into `folders_by_desktop` by
`get_workspace_index`. -/
structure FolderLite where
  id : String
  name : String
  target_desktop_id : Option String
  target_desktop_name : Option String
  icon : Option String
  color : Option String
  deriving DecidableEq, Repr

/-- A row of the `connections` table
(`select id, from_note_id, to_note_id, desktop_id, color`). -/
structure ConnRec where
  id : String
  from_note_id : String
  to_note_id : String
  desktop_id : String
  color : Option String := none
  deriving DecidableEq, Repr

/-- A row of the `assets` table (only `id` and the `note_id` foreign key are
touched by the stats aggregator). -/
structure AssetRec where
  id : String
  note_id : String
  deriving DecidableEq, Repr

/-- A row of the `workspaces` table as fetched by step 1 of
`get_workspace_index` (with the `deleted_at is null` filter column). -/
structure WorkspaceRec where
  id : String
  name : String
  is_default : Bool := false
  deleted_at : Option String := none
  deriving DecidableEq, Repr

/-!
## `add_level` (tools/desktops.py, lines 131-142)

```python
def add_level(desktop_list, parent_id, level):
    items = []
    for d in desktop_list:
        if d.get("parent_id") == parent_id and level <= max_depth:
            d["level"] = level
            items.append(d)
            # Add children
            items.extend(add_level(desktop_list, d["id"], level + 1))
    return items
```

`addLevelGo L maxDepth rem parent level` is the loop with `rem` the still
unprocessed tail of the `for d in desktop_list` iteration; the full call is
`addLevel` with `rem = L`.  The recursion terminates because the recursive
self-call is guarded by `level ≤ maxDepth`.
-/

/-- The body of `add_level`.  The `for` loop only concatenates: each
iteration appends the matched row (with its `level` written) followed by the
recursive call's items, so the loop is a `flatMap` over `desktop_list`.
The recursion is driven by a structural `gas` counter (so that concrete
instances evaluate by `decide`); since the recursive self-call is guarded by
`level ≤ maxDepth`, any `gas ≥ maxDepth + 1 - level` yields the same result
(`addLevelGo_gas_irrel` below), which is the Python function's value. -/
def addLevelGo (L : List Desktop) (maxDepth : Nat) :
    Nat → Option String → Nat → List Desktop
  | 0, _, _ => []
  | gas + 1, parent, level =>
    L.flatMap (fun d =>
      if d.parent_id = parent ∧ level ≤ maxDepth then
        { d with level := some level }
          :: addLevelGo L maxDepth gas (some d.id) (level + 1)
      else [])

/-- `add_level(desktop_list, parent_id, level)`. -/
def addLevel (L : List Desktop) (maxDepth : Nat) (parent : Option String)
    (level : Nat) : List Desktop :=
  addLevelGo L maxDepth (maxDepth + 1 - level) parent level

/-- Once `level` exceeds `max_depth` every guard fails and `add_level`
returns `[]`, whatever the gas. -/
theorem addLevelGo_of_depth_lt (L : List Desktop) (maxDepth : Nat)
    (gas : Nat) (parent : Option String) (level : Nat)
    (h : maxDepth < level) :
    addLevelGo L maxDepth gas parent level = [] := by
  cases gas with
  | zero => rfl
  | succ g =>
    simp only [addLevelGo, List.flatMap_eq_nil_iff]
    intro d _
    have : ¬(d.parent_id = parent ∧ level ≤ maxDepth) := by
      rintro ⟨-, hle⟩
      omega
    simp [this]

/-- Gas-stability of `add_level`: any gas of at least `maxDepth + 1 - level`
computes the Python function's value.  This is the termination argument of
the source: the self-call is guarded by `level ≤ max_depth`. -/
theorem addLevelGo_gas_irrel (L : List Desktop) (maxDepth : Nat) :
    ∀ gas₁ gas₂ parent level, maxDepth + 1 - level ≤ gas₁ →
      maxDepth + 1 - level ≤ gas₂ →
      addLevelGo L maxDepth gas₁ parent level
        = addLevelGo L maxDepth gas₂ parent level := by
  intro gas₁
  induction gas₁ with
  | zero =>
    intro gas₂ parent level h₁ h₂
    have hlt : maxDepth < level := by omega
    rw [addLevelGo_of_depth_lt L maxDepth 0 parent level hlt,
      addLevelGo_of_depth_lt L maxDepth gas₂ parent level hlt]
  | succ g ih =>
    intro gas₂ parent level h₁ h₂
    by_cases hlt : maxDepth < level
    · rw [addLevelGo_of_depth_lt L maxDepth _ parent level hlt,
        addLevelGo_of_depth_lt L maxDepth gas₂ parent level hlt]
    · have hle : level ≤ maxDepth := by omega
      obtain ⟨g', rfl⟩ : ∃ g', gas₂ = g' + 1 := by
        cases gas₂ with
        | zero => omega
        | succ n => exact ⟨n, rfl⟩
      simp only [addLevelGo]
      apply congrArg
      funext d
      by_cases hd : d.parent_id = parent ∧ level ≤ maxDepth
      · simp only [if_pos hd]
        rw [ih g' (some d.id) (level + 1) (by omega) (by omega)]
      · simp [if_neg hd]

/-- The value returned by `get_desktop_hierarchy`:
`add_level(desktops, None, 0)`. -/
def addLevelTop (L : List Desktop) (maxDepth : Nat) : List Desktop :=
  addLevel L maxDepth none 0

/-!
## `build_tree` (tools/search.py, lines 474-492) and its surroundings

```python
def build_tree(parent_id, level=0):
    children = []
    for d in desktop_list:
        if d.get("parent_id") == parent_id:
            desktop_node = {
                "id": d["id"], "name": d["name"], "level": level,
                "notes": notes_by_desktop.get(d["id"], []),
                "folders": folders_by_desktop.get(d["id"], []),
                "note_count": len(notes_by_desktop.get(d["id"], [])),
                "folder_count": len(folders_by_desktop.get(d["id"], [])),
                "children": build_tree(d["id"], level + 1)}
            children.append(desktop_node)
    return children
```

There is no depth bound; the Python recursion is embedded with a `fuel`
parameter (`fuel = 0` returns `[]`, a case the fuel-stability theorems show
unreachable from `fuel = L.length + 1` on duplicate-free input).
-/

/-- The forest of nodes built by `build_tree`, in first-child/next-sibling
form: `node id name level notes folders note_count folder_count children
sibs` is a node followed by its later siblings `sibs`.  (A Python list of
node dicts corresponds to the chain of its elements; the representation is
chosen over `List` of a nested inductive so that all functions below are
structurally recursive and compute by `decide`.) -/
inductive TForest where
  | nil
  | node (id name : String) (level : Nat) (notes : List NoteLite)
      (folders : List FolderLite) (note_count folder_count : Nat)
      (children : TForest) (sibs : TForest)
  deriving DecidableEq, Repr

/-- `dict.setdefault`-style grouping step: append `v` to the entry of key
`k`, creating the entry at the end if absent (Python dicts preserve
insertion order). -/
def groupAppend {α : Type} (m : List (String × List α)) (k : String)
    (v : α) : List (String × List α) :=
  if m.any (fun p => p.1 = k) then
    m.map (fun p => if p.1 = k then (p.1, p.2 ++ [v]) else p)
  else
    m ++ [(k, [v])]

/-- `m.get(k, [])` on a grouping map. -/
def lookupGroup {α : Type} (m : List (String × List α)) (k : String) :
    List α :=
  ((m.find? (fun p => p.1 = k)).map (fun p => p.2)).getD []

/-- The note object stored in `notes_by_desktop` by `get_workspace_index`
(content only kept when `include_note_content`). -/
def noteLite (includeContent : Bool) (n : NoteRec) : NoteLite :=
  { id := n.id, title := n.title, color := n.color,
    updated_at := n.updated_at,
    content := if includeContent then n.content else none }

/-- The `notes_by_desktop` grouping loop of `get_workspace_index`. -/
def notesByDesktop (allNotes : List NoteRec) (includeContent : Bool) :
    List (String × List NoteLite) :=
  allNotes.foldl (fun m n => groupAppend m n.desktop_id
    (noteLite includeContent n)) []

/-- The folder object stored in `folders_by_desktop`: the target desktop's
name is the name of the first desktop in `desktop_list` whose id equals
`target_desktop_id` (`None` when there is none). -/
def folderLite (desktopList : List Desktop) (f : FolderRec) : FolderLite :=
  { id := f.id, name := f.name, target_desktop_id := f.target_desktop_id,
    target_desktop_name :=
      (desktopList.find? (fun d => f.target_desktop_id = some d.id)).map
        (fun d => d.name),
    icon := f.icon, color := f.color }

/-- The `folders_by_desktop` grouping loop of `get_workspace_index`. -/
def foldersByDesktop (desktopList : List Desktop)
    (allFolders : List FolderRec) : List (String × List FolderLite) :=
  allFolders.foldl (fun m f => groupAppend m f.desktop_id
    (folderLite desktopList f)) []

/-- `build_tree(parent_id, level)` with explicit fuel: the `for` loop over
`desktop_list` builds, in list order, one node per row matching
`parent_id`, each node's children being the recursive call on its id. -/
def buildTree (nbd : List (String × List NoteLite))
    (fbd : List (String × List FolderLite)) (L : List Desktop) :
    Nat → Option String → Nat → TForest
  | 0, _, _ => TForest.nil
  | fuel + 1, parent, level =>
    (L.filter (fun d => d.parent_id = parent)).foldr
      (fun d acc =>
        TForest.node d.id d.name level (lookupGroup nbd d.id)
          (lookupGroup fbd d.id) (lookupGroup nbd d.id).length
          (lookupGroup fbd d.id).length
          (buildTree nbd fbd L fuel (some d.id) (level + 1)) acc)
      TForest.nil

/-- `build_tree(None)` with the canonical sufficient fuel
(`L.length + 1`; see the fuel-stability theorem). -/
def buildTreeTop (nbd : List (String × List NoteLite))
    (fbd : List (String × List FolderLite)) (L : List Desktop) : TForest :=
  buildTree nbd fbd L (L.length + 1) none 0

/-- All `id`s occurring anywhere in a forest. -/
def forestIds : TForest → List String
  | TForest.nil => []
  | TForest.node i _ _ _ _ _ _ cs sibs =>
      i :: (forestIds cs ++ forestIds sibs)

/-- All `level`s occurring anywhere in a forest. -/
def forestLevels : TForest → List Nat
  | TForest.nil => []
  | TForest.node _ _ l _ _ _ _ cs sibs =>
      l :: (forestLevels cs ++ forestLevels sibs)

/-- Sum of the `note_count` fields over a whole forest. -/
def forestNoteTotal : TForest → Nat
  | TForest.nil => 0
  | TForest.node _ _ _ _ _ nc _ cs sibs =>
      nc + forestNoteTotal cs + forestNoteTotal sibs

/-!
## `get_workspace_index` and `get_workspace_stats` (tools/search.py)

The backend is a record of tables; a filtered query is a `filter` in table
order, `.order(col)` is a sort on that column (`insertionSort`, a stable
sort; the backend promises no particular order among ties).  Both functions
also return a trace listing the tables they queried, in order, so that the
"no further queries" clauses are statable.
-/

/-- The in-memory snapshot of the backend tables. -/
structure Tables where
  workspaces : List WorkspaceRec
  desktops : List Desktop
  notes : List NoteRec
  folders : List FolderRec
  connections : List ConnRec
  assets : List AssetRec
  deriving Repr

/-- A `flat_notes` entry: `{"id": .., "title": .., "desktop_id": ..}`. -/
structure FlatNote where
  id : String
  title : String
  desktop_id : String
  deriving DecidableEq, Repr

/-- A `flat_folders` entry: `{"id": .., "name": .., "desktop_id": ..}`. -/
structure FlatFolder where
  id : String
  name : String
  desktop_id : String
  deriving DecidableEq, Repr

/-- The result dict of `get_workspace_index` (the `stats` sub-dict is kept
as a key/count association list so that which keys are present is part of
the value). -/
structure IndexResult where
  workspace : WorkspaceRec
  tree : TForest
  flat_notes : List FlatNote
  flat_folders : List FlatFolder
  stats : List (String × Nat)
  deriving DecidableEq, Repr

/-- `get_workspace_index(workspace_id, include_note_content)`
(tools/search.py, lines 349-508).  Returns `none` for the `ValueError`
paths (workspace not found), and the list of tables queried, in order. -/
def getWorkspaceIndex (t : Tables) (wsId : String)
    (includeContent : Bool) : Option IndexResult × List String :=
  match t.workspaces.find? (fun w => w.id = wsId ∧ w.deleted_at = none) with
  | none => (none, ["workspaces"])
  | some ws =>
    let desktop_list := List.insertionSort
      (fun a b => a.position_order ≤ b.position_order)
      (t.desktops.filter (fun d => d.workspace_id = wsId))
    let desktop_ids := desktop_list.map (fun d => d.id)
    if desktop_ids.isEmpty then
      (some { workspace := ws, tree := TForest.nil, flat_notes := [],
              flat_folders := [],
              stats := [("desktops", 0), ("notes", 0), ("folders", 0),
                        ("connections", 0)] },
       ["workspaces", "desktops"])
    else
      let all_notes := List.insertionSort
        (fun a b => a.z_index ≤ b.z_index)
        (t.notes.filter (fun n => n.desktop_id ∈ desktop_ids))
      let all_folders := t.folders.filter
        (fun f => f.desktop_id ∈ desktop_ids)
      let all_connections := t.connections.filter
        (fun c => c.desktop_id ∈ desktop_ids)
      let nbd := notesByDesktop all_notes includeContent
      let fbd := foldersByDesktop desktop_list all_folders
      (some { workspace := ws,
              tree := buildTreeTop nbd fbd desktop_list,
              flat_notes := all_notes.map (fun n =>
                { id := n.id, title := n.title, desktop_id := n.desktop_id }),
              flat_folders := all_folders.map (fun f =>
                { id := f.id, name := f.name, desktop_id := f.desktop_id }),
              stats := [("desktops", desktop_list.length),
                        ("notes", all_notes.length),
                        ("folders", all_folders.length),
                        ("connections", all_connections.length)] },
       ["workspaces", "desktops", "notes", "folders", "connections"])

/-- `get_workspace_stats(workspace_id)` (tools/search.py, lines 176-255):
the five per-type counts it returns (the `workspace_id` echo key is
omitted), and the list of tables queried, in order.  The `assets` count
query is only issued when the note id list is non-empty. -/
def getWorkspaceStats (t : Tables) (wsId : String) :
    List (String × Nat) × List String :=
  let desktops := t.desktops.filter (fun d => d.workspace_id = wsId)
  if desktops.length = 0 then
    ([("desktops", 0), ("notes", 0), ("folders", 0), ("connections", 0),
      ("assets", 0)],
     ["desktops"])
  else
    let desktop_ids := desktops.map (fun d => d.id)
    let note_rows := t.notes.filter (fun n => n.desktop_id ∈ desktop_ids)
    let folder_rows := t.folders.filter
      (fun f => f.desktop_id ∈ desktop_ids)
    let conn_rows := t.connections.filter
      (fun c => c.desktop_id ∈ desktop_ids)
    let note_ids := note_rows.map (fun n => n.id)
    if note_ids.isEmpty then
      ([("desktops", desktops.length), ("notes", note_rows.length),
        ("folders", folder_rows.length),
        ("connections", conn_rows.length), ("assets", 0)],
       ["desktops", "notes", "folders", "connections", "notes"])
    else
      ([("desktops", desktops.length), ("notes", note_rows.length),
        ("folders", folder_rows.length),
        ("connections", conn_rows.length),
        ("assets", (t.assets.filter
          (fun a => a.note_id ∈ note_ids)).length)],
       ["desktops", "notes", "folders", "connections", "notes", "assets"])

/-!
## The in-place effect of `add_level` on its input (desktops.py, line 136)

`add_level` executes `d["level"] = level` on the input dicts themselves.
The `"level"` key is read by no condition (`parent_id` and `id` only), so
the writes do not alter control flow, and the pure recursion `addLevel`
above computes the emitted (row, level) pairs exactly.  A given input
record `d` is written at precisely the calls whose `parent_id` argument
equals `d.parent_id` — the very calls at which the output rows with that
same `parent_id` were emitted, and with the same level — so the final value
of `d`'s `"level"` key is the level of the last output row sharing
`d.parent_id` (and `d` is untouched iff no output row shares it). -/
def addLevelStore (L : List Desktop) (maxDepth : Nat) : List Desktop :=
  L.map (fun d =>
    match ((addLevelTop L maxDepth).filter
        (fun o => o.parent_id = d.parent_id)).getLast? with
    | some o => { d with level := o.level }
    | none => d)

/-!
## The `search_notes` merge loop (tools/search.py, lines 80-90)

```python
seen_ids = set()
results = []
for note in (title_results.data or []) + (content_results.data or []):
    if note["id"] not in seen_ids:
        seen_ids.add(note["id"])
        note["match_type"] = "title" if note in (title_results.data or []) else "content"
        results.append(note)
return results[:limit]
```

The provenance test `note in title_results.data` is Python `==` list
membership, modelled as value membership of the unmutated rows.  (In the
source the already-processed title rows carry an extra `match_type` key at
comparison time; that only changes the outcome for a row equal to a title
row of the same id, which the `seen_ids` test has already skipped.)
-/

/-- A note row returned by the two `search_notes` queries (`select id,
title, desktop_id, ...[, content]`; position/timestamp columns ride along
and are omitted), with the optional `match_type` key written by the merge
loop. -/
structure SNote where
  id : String
  title : String
  desktop_id : String
  content : Option String := none
  match_type : Option String := none
  deriving DecidableEq, Repr

/-- The merge loop of `search_notes` over the concatenated result rows,
with `seen` the set of already-emitted ids. -/
def mergeLoop (titleData : List SNote) :
    List SNote → List String → List SNote
  | [], _ => []
  | n :: rest, seen =>
    if n.id ∈ seen then
      mergeLoop titleData rest seen
    else
      let tag : String := if n ∈ titleData then "title" else "content"
      { n with match_type := some tag }
        :: mergeLoop titleData rest (n.id :: seen)

/-- `search_notes`'s merged, deduplicated, truncated result list, given the
two query results and the (clamped) limit. -/
def searchMerge (titleData contentData : List SNote) (limit : Nat) :
    List SNote :=
  (mergeLoop titleData (titleData ++ contentData) []).take limit

/-!
## `check_rate_limit` (auth.py, lines 168-190)

```python
now = time.time()
window = 60
self._request_timestamps = [ts for ts in self._request_timestamps if ts > now - window]
limit = self.config.rate_limit_write if is_write else self.config.rate_limit_read
if len(self._request_timestamps) >= limit:
    raise ValueError(...)
self._request_timestamps.append(now)
```

Timestamps are modelled as integers (the comparisons are order-only).
-/

/-- The two configured limits (`AuthConfig.rate_limit_read/_write`). -/
structure RLConfig where
  rate_limit_read : Nat
  rate_limit_write : Nat
  deriving DecidableEq, Repr

/-- One `check_rate_limit(is_write)` call at time `now` against the stored
timestamp list: returns `false` when it raises (the pruned list is kept —
pruning happens before the check), `true` with the appended list
otherwise. -/
def checkRateLimit (cfg : RLConfig) (ts : List Int) (now : Int)
    (isWrite : Bool) : Bool × List Int :=
  let pruned := ts.filter (fun t => now - 60 < t)
  let limit := if isWrite then cfg.rate_limit_write else cfg.rate_limit_read
  if limit ≤ pruned.length then (false, pruned)
  else (true, pruned ++ [now])

/-- Run a sequence of `(now, is_write)` calls through the shared counter,
returning each call's outcome (`true` = allowed). -/
def runCalls (cfg : RLConfig) :
    List (Int × Bool) → List Int → List Bool
  | [], _ => []
  | (now, w) :: rest, st =>
    (checkRateLimit cfg st now w).1
      :: runCalls cfg rest (checkRateLimit cfg st now w).2

/-!
## `find_connected_notes` (tools/search.py, lines 257-347)

`visited` and `new_note_ids` are Python sets used only through membership
(the `in_` query filters) and as the next frontier, so they are modelled as
insertion-ordered duplicate-free lists.  The per-round note fetch is a
filter of the notes table by membership in the round's new ids (when the
new id set is empty the source skips the query, which returns the same
empty list).  `start_note` is fetched with `.single()`, modelled as
`find?`; a missing start note is the raised `ValueError`, i.e. `none`.
-/

/-- A note object as selected by `find_connected_notes`
(`select id, title, desktop_id`). -/
structure NoteBrief where
  id : String
  title : String
  desktop_id : String
  deriving DecidableEq, Repr

/-- `{"id": n.id, "title": n.title, "desktop_id": n.desktop_id}`. -/
def noteBrief (n : NoteRec) : NoteBrief :=
  { id := n.id, title := n.title, desktop_id := n.desktop_id }

/-- The `if nid not in visited` body of the endpoint loop: record an
endpoint as visited and newly discovered, or skip it.  The state is
(`visited`, `new_note_ids`). -/
def addEndpoint (x : String) (st : List String × List String) :
    List String × List String :=
  if x ∈ st.1 then st else (x :: st.1, st.2 ++ [x])

/-- The inner `for conn / for field` loops of a round: thread `visited` and
the round's `new_note_ids` through the matched connections, adding each
endpoint (`from_note_id` then `to_note_id`) not yet visited. -/
def collectNew : List ConnRec → List String → List String →
    List String × List String
  | [], vis, new => (vis, new)
  | c :: rest, vis, new =>
    let st := addEndpoint c.to_note_id (addEndpoint c.from_note_id (vis, new))
    collectNew rest st.1 st.2

/-- The connections matched in one round: the `from_note_id in frontier`
query result followed by the `to_note_id in frontier` query result. -/
def roundConns (conns : List ConnRec) (cur : List String) : List ConnRec :=
  conns.filter (fun c => c.from_note_id ∈ cur)
    ++ conns.filter (fun c => c.to_note_id ∈ cur)

/-- The `for _ in range(depth)` loop: accumulates the appended connections
and fetched connected notes, breaking early on an empty frontier.  Returns
(connections accumulator, connected-notes accumulator, final visited). -/
def bfsLoop (notesT : List NoteRec) (conns : List ConnRec) :
    Nat → List String → List String → List ConnRec → List NoteBrief →
    List ConnRec × List NoteBrief × List String
  | 0, _, vis, accC, accN => (accC, accN, vis)
  | k + 1, cur, vis, accC, accN =>
    if cur.isEmpty then (accC, accN, vis)
    else
      let all := roundConns conns cur
      let vn := collectNew all vis []
      let fetched := (notesT.filter (fun n => n.id ∈ vn.2)).map noteBrief
      bfsLoop notesT conns k vn.2 vn.1 (accC ++ all) (accN ++ fetched)

/-- The final `Remove duplicate connections` pass: keep the first
occurrence of each connection id. -/
def dedupConnsGo : List ConnRec → List String → List ConnRec
  | [], _ => []
  | c :: rest, seen =>
    if c.id ∈ seen then dedupConnsGo rest seen
    else c :: dedupConnsGo rest (c.id :: seen)

/-- `dedupConnsGo` from an empty seen set. -/
def dedupConns (l : List ConnRec) : List ConnRec :=
  dedupConnsGo l []

/-- The result dict of `find_connected_notes`. -/
structure ConnResult where
  root : NoteBrief
  connected_notes : List NoteBrief
  connections : List ConnRec
  deriving DecidableEq, Repr

/-- `find_connected_notes(note_id, depth)`: clamp the depth to `[1, 5]`,
resolve the start note (error = `none`), run the rounds, deduplicate the
edge list. -/
def findConnectedNotes (notesT : List NoteRec) (conns : List ConnRec)
    (noteId : String) (depth : Nat) : Option ConnResult :=
  let depth1 := min (max 1 depth) 5
  match notesT.find? (fun n => n.id = noteId) with
  | none => none
  | some start =>
    let r := bfsLoop notesT conns depth1 [noteId] [noteId] [] []
    some { root := noteBrief start, connected_notes := r.2.1,
           connections := dedupConns r.1 }

/-!
## Concrete fixtures
-/

/-- A desktop row with the fields the hierarchy builders read. -/
def mkDesk (i : String) (p : Option String) (pos : Int) : Desktop :=
  { id := i, workspace_id := "w", name := i, parent_id := p,
    position_order := pos }

/-- A strictly nested parent chain of 15 desktops (the spec's depth-ceiling
test vector). -/
def chain15 : List Desktop :=
  [mkDesk "e00" none 0, mkDesk "e01" (some "e00") 1,
   mkDesk "e02" (some "e01") 2, mkDesk "e03" (some "e02") 3,
   mkDesk "e04" (some "e03") 4, mkDesk "e05" (some "e04") 5,
   mkDesk "e06" (some "e05") 6, mkDesk "e07" (some "e06") 7,
   mkDesk "e08" (some "e07") 8, mkDesk "e09" (some "e08") 9,
   mkDesk "e10" (some "e09") 10, mkDesk "e11" (some "e10") 11,
   mkDesk "e12" (some "e11") 12, mkDesk "e13" (some "e12") 13,
   mkDesk "e14" (some "e13") 14]

/-!
## Claim C1: the depth ceiling
-/

/-- Every row emitted by `add_level` carries a level within the
`max_depth` bound: the guard `level <= max_depth` protects every write. -/
theorem addLevelGo_level_le (L : List Desktop) (maxD : Nat) :
    ∀ gas parent level item, item ∈ addLevelGo L maxD gas parent level →
      ∃ l, item.level = some l ∧ l ≤ maxD := by
  intro gas
  induction gas with
  | zero =>
    intro _ _ _ h
    simp [addLevelGo] at h
  | succ g ih =>
    intro parent level item h
    simp only [addLevelGo, List.mem_flatMap] at h
    obtain ⟨d, -, hitem⟩ := h
    by_cases hg : d.parent_id = parent ∧ level ≤ maxD
    · rw [if_pos hg] at hitem
      rcases List.mem_cons.mp hitem with h1 | h2
      · exact ⟨level, by rw [h1], hg.2⟩
      · exact ih (some d.id) (level + 1) item h2
    · rw [if_neg hg] at hitem
      simp at hitem

/-- C1 (corrected).  `add_level` enforces the ceiling: every emitted row's
level is at most `max_depth`, and the 15-chain with `max_depth = 10` yields
exactly levels 0 through 10, deeper desktops silently absent.  `build_tree`
in `get_workspace_index`, however, applies no depth bound: the same
15-chain yields all levels 0 through 14. -/
theorem addLevel_ceiling_buildTree_unbounded :
    (∀ (L : List Desktop) (maxD : Nat) (item : Desktop),
      item ∈ addLevelTop L maxD → ∃ l, item.level = some l ∧ l ≤ maxD)
    ∧ (addLevelTop chain15 10).map Desktop.level
        = (List.range 11).map some
    ∧ forestLevels (buildTreeTop [] [] chain15) = List.range 15 := by
  refine ⟨?_, by decide, by decide⟩
  intro L maxD item h
  exact addLevelGo_level_le L maxD (maxD + 1 - 0) none 0 item h

/-- C1 counterexample: on the claim's own test vector (a 15-chain with the
default `max_depth = 10`), `build_tree` produces a node of level 11 — the
claim's bound `level ≤ max_depth` fails for `build_tree`. -/
theorem buildTree_level_exceeds_ceiling :
    11 ∈ forestLevels (buildTreeTop [] [] chain15) := by decide

/-- C1 witness: the ceiling theorem applied to the 15-chain and its first
emitted row. -/
theorem addLevel_ceiling_witness :
    ∃ l, (Desktop.level { mkDesk "e00" none 0 with level := some 0 })
        = some l ∧ l ≤ 10 :=
  addLevel_ceiling_buildTree_unbounded.1 chain15 10
    { mkDesk "e00" none 0 with level := some 0 } (by decide)

/-!
## Claim C4: the search-result merge
-/

/-- Spec-side description of first-seen deduplication on ids. -/
def dedupFirstIds : List String → List String → List String
  | [], _ => []
  | x :: xs, seen =>
    if x ∈ seen then dedupFirstIds xs seen
    else x :: dedupFirstIds xs (x :: seen)

/-- The id accumulation of the merge loop (`seen_ids` after processing a
prefix). -/
def seenAfter : List SNote → List String → List String
  | [], seen => seen
  | n :: rest, seen =>
    if n.id ∈ seen then seenAfter rest seen
    else seenAfter rest (n.id :: seen)

/-- The ids emitted by the merge loop are the first-seen deduplication of
the processed ids. -/
theorem mergeLoop_map_id (titleData : List SNote) :
    ∀ rest seen, (mergeLoop titleData rest seen).map SNote.id
      = dedupFirstIds (rest.map SNote.id) seen := by
  intro rest
  induction rest with
  | nil => intro seen; rfl
  | cons n rest ih =>
    intro seen
    by_cases h : n.id ∈ seen
    · simp only [mergeLoop, dedupFirstIds, List.map_cons, if_pos h]
      exact ih seen
    · simp only [mergeLoop, dedupFirstIds, List.map_cons, if_neg h,
        List.map_cons]
      exact congrArg _ (ih (n.id :: seen))

/-- First-seen deduplication emits no duplicates and nothing already
seen. -/
theorem dedupFirstIds_nodup :
    ∀ l seen, (dedupFirstIds l seen).Nodup
      ∧ ∀ x ∈ dedupFirstIds l seen, x ∉ seen := by
  intro l
  induction l with
  | nil => intro seen; exact ⟨List.nodup_nil, by simp [dedupFirstIds]⟩
  | cons x xs ih =>
    intro seen
    by_cases h : x ∈ seen
    · simpa [dedupFirstIds, if_pos h] using ih seen
    · have htail := ih (x :: seen)
      constructor
      · simp only [dedupFirstIds, if_neg h]
        refine List.Nodup.cons ?_ htail.1
        intro hx
        exact (htail.2 x hx) (List.mem_cons_self x seen)
      · intro y hy
        simp only [dedupFirstIds, if_neg h, List.mem_cons] at hy
        rcases hy with rfl | hy
        · exact h
        · intro hys
          exact (htail.2 y hy) (List.mem_cons_of_mem x hys)

/-- Splitting the merge loop at a concatenation point. -/
theorem mergeLoop_append (titleData : List SNote) :
    ∀ xs ys seen, mergeLoop titleData (xs ++ ys) seen
      = mergeLoop titleData xs seen
        ++ mergeLoop titleData ys (seenAfter xs seen) := by
  intro xs
  induction xs with
  | nil => intro ys seen; rfl
  | cons n xs ih =>
    intro ys seen
    by_cases h : n.id ∈ seen
    · simp only [List.cons_append, mergeLoop, seenAfter, if_pos h]
      exact ih ys seen
    · simp only [List.cons_append, mergeLoop, seenAfter, if_neg h,
        List.cons_append]
      exact congrArg _ (ih ys (n.id :: seen))

/-- Membership in `seenAfter`. -/
theorem seenAfter_mem :
    ∀ (xs : List SNote) (seen : List String) (x : String),
      x ∈ seenAfter xs seen ↔ x ∈ seen ∨ x ∈ xs.map SNote.id := by
  intro xs
  induction xs with
  | nil => intro seen x; simp [seenAfter]
  | cons n rest ih =>
    intro seen x
    by_cases h : n.id ∈ seen
    · rw [seenAfter, if_pos h, ih seen x]
      simp only [List.map_cons, List.mem_cons]
      constructor
      · rintro (hx | hx)
        · exact Or.inl hx
        · exact Or.inr (Or.inr hx)
      · rintro (hx | rfl | hx)
        · exact Or.inl hx
        · exact Or.inl h
        · exact Or.inr hx
    · rw [seenAfter, if_neg h, ih (n.id :: seen) x]
      simp only [List.mem_cons, List.map_cons]
      tauto

/-- Every row emitted by the merge loop stems from a processed row, keeps
its id, is tagged by the title-membership test, and was not previously
seen. -/
theorem mergeLoop_from (titleData : List SNote) :
    ∀ rest seen r, r ∈ mergeLoop titleData rest seen →
      ∃ n ∈ rest, r.id = n.id ∧ r.id ∉ seen
        ∧ r.match_type
            = some (if n ∈ titleData then "title" else "content") := by
  intro rest
  induction rest with
  | nil => intro seen r h; simp [mergeLoop] at h
  | cons n rest ih =>
    intro seen r h
    by_cases hn : n.id ∈ seen
    · rw [mergeLoop, if_pos hn] at h
      obtain ⟨m, hm, hr⟩ := ih seen r h
      exact ⟨m, List.mem_cons_of_mem n hm, hr⟩
    · rw [mergeLoop, if_neg hn] at h
      rcases List.mem_cons.mp h with rfl | h2
      · exact ⟨n, List.mem_cons_self n rest, rfl, hn, rfl⟩
      · obtain ⟨m, hm, hid, hseen, htag⟩ := ih (n.id :: seen) r h2
        exact ⟨m, List.mem_cons_of_mem n hm, hid,
          fun hx => hseen (List.mem_cons_of_mem _ hx), htag⟩

/-- C4 (confirmed).  When the number of distinct ids over the two result
lists is within the (clamped) limit, the merged `search_notes` result lists
each id exactly once in first-seen order over title-then-content, and a
row's provenance tag is `"title"` exactly when its id occurs among the
title matches. -/
theorem searchMerge_dedup (titleData contentData : List SNote)
    (limit : Nat)
    (hlim : (dedupFirstIds ((titleData ++ contentData).map SNote.id)
      []).length ≤ limit) :
    (searchMerge titleData contentData limit).map SNote.id
        = dedupFirstIds ((titleData ++ contentData).map SNote.id) []
    ∧ ((searchMerge titleData contentData limit).map SNote.id).Nodup
    ∧ ∀ r ∈ searchMerge titleData contentData limit,
        (r.id ∈ titleData.map SNote.id → r.match_type = some "title")
        ∧ (r.id ∉ titleData.map SNote.id →
            r.match_type = some "content") := by
  have hids := mergeLoop_map_id titleData (titleData ++ contentData) []
  have hlen : (mergeLoop titleData (titleData ++ contentData) []).length
      ≤ limit := by
    have := congrArg List.length hids
    simpa using this.le.trans hlim
  have htake : searchMerge titleData contentData limit
      = mergeLoop titleData (titleData ++ contentData) [] :=
    List.take_of_length_le hlen
  refine ⟨htake ▸ hids, ?_, ?_⟩
  · rw [htake, hids]
    exact (dedupFirstIds_nodup _ []).1
  · intro r hr
    rw [htake, mergeLoop_append] at hr
    rcases List.mem_append.mp hr with h1 | h2
    · obtain ⟨n, hn, hid, -, htag⟩ := mergeLoop_from titleData _ _ r h1
      rw [if_pos hn] at htag
      constructor
      · intro _; exact htag
      · intro hcontra
        exact absurd (hid ▸ List.mem_map_of_mem SNote.id hn) hcontra
    · obtain ⟨n, hn, hid, hseen, htag⟩ := mergeLoop_from titleData _ _ r h2
      have hnot : r.id ∉ titleData.map SNote.id := by
        intro hx
        exact hseen ((seenAfter_mem titleData [] r.id).mpr (Or.inr hx))
      have hntitle : n ∉ titleData := by
        intro hx
        exact hnot (hid ▸ List.mem_map_of_mem SNote.id hx)
      rw [if_neg hntitle] at htag
      exact ⟨fun hx => absurd hx hnot, fun _ => htag⟩

/-- The spec's dedup scenario: title matches {A, B}, content matches
{B, C}. -/
def snA : SNote := { id := "a", title := "A", desktop_id := "d" }

/-- Title/content row B of the dedup scenario. -/
def snB : SNote := { id := "b", title := "B", desktop_id := "d" }

/-- Content row C of the dedup scenario. -/
def snC : SNote := { id := "c", title := "C", desktop_id := "d" }

/-- C4 witness: on the spec's scenario the merged ids are exactly
[a, b, c]. -/
theorem searchMerge_dedup_witness :
    (searchMerge [snA, snB] [snB, snC] 20).map SNote.id
      = ["a", "b", "c"] :=
  (searchMerge_dedup [snA, snB] [snB, snC] 20 (by decide)).1.trans
    (by decide)

/-!
## Claim C2: read/write rate limiting
-/

/-- Spec-side description of the rate limiter as amended: a call at `now`
is allowed iff the number of prior *successful* calls — of either kind,
the counter is shared — within the 60-second window is below the limit
configured for the current call's kind; `hist` is the full list of prior
successful call times. -/
def allowSpec (cfg : RLConfig) : List (Int × Bool) → List Int → List Bool
  | [], _ => []
  | (now, w) :: rest, hist =>
    if (hist.filter (fun t => now - 60 < t)).length
        < (if w then cfg.rate_limit_write else cfg.rate_limit_read) then
      true :: allowSpec cfg rest (hist ++ [now])
    else
      false :: allowSpec cfg rest hist

/-- The stored timestamp list only ever forgets entries outside the
current window, so for time-ordered calls it is interchangeable with the
full success history filtered at the latest call time. -/
theorem runCalls_eq_allowSpec_aux (cfg : RLConfig) :
    ∀ (calls : List (Int × Bool)) (hist : List Int) (cut : Int),
      (∀ p ∈ calls, cut ≤ p.1) →
      List.Pairwise (fun p q => p.1 ≤ q.1) calls →
      runCalls cfg calls (hist.filter (fun t => cut - 60 < t))
        = allowSpec cfg calls hist := by
  intro calls
  induction calls with
  | nil => intro hist cut _ _; rfl
  | cons p rest ih =>
    intro hist cut hcut hmono
    obtain ⟨now, w⟩ := p
    have hnow : cut ≤ now := hcut (now, w) (List.mem_cons_self _ _)
    have hprune : (hist.filter (fun t => cut - 60 < t)).filter
        (fun t => now - 60 < t) = hist.filter (fun t => now - 60 < t) := by
      rw [List.filter_filter]
      apply List.filter_congr
      intro t _
      by_cases h : now - 60 < t
      · have h2 : cut - 60 < t := by omega
        simp [h, h2]
      · simp [h]
    have hrest : ∀ q ∈ rest, now ≤ q.1 := by
      intro q hq
      exact (List.pairwise_cons.mp hmono).1 q hq
    have hmrest := (List.pairwise_cons.mp hmono).2
    simp only [runCalls, allowSpec, checkRateLimit, hprune]
    by_cases hlim : (hist.filter (fun t => now - 60 < t)).length
        < (if w then cfg.rate_limit_write else cfg.rate_limit_read)
    · rw [if_neg (by omega), if_pos hlim]
      have happ : hist.filter (fun t => now - 60 < t) ++ [now]
          = (hist ++ [now]).filter (fun t => now - 60 < t) := by
        rw [List.filter_append]
        simp
      simp only [happ]
      exact congrArg _ (ih (hist ++ [now]) now hrest hmrest)
    · rw [if_pos (by omega), if_neg hlim]
      exact congrArg _ (ih hist now hrest hmrest)

/-- C2 (corrected).  The counter is shared between reads and writes: for
every time-ordered call sequence, a call is allowed exactly when the
number of prior successful calls of *either* kind within the 60-second
window is below the limit configured for the current call's kind. -/
theorem runCalls_shared_counter (cfg : RLConfig)
    (calls : List (Int × Bool))
    (hmono : List.Pairwise (fun p q => p.1 ≤ q.1) calls) :
    runCalls cfg calls [] = allowSpec cfg calls [] := by
  cases calls with
  | nil => rfl
  | cons p rest =>
    have h := runCalls_eq_allowSpec_aux cfg (p :: rest) [] p.1 ?_ hmono
    · simpa using h
    · intro q hq
      rcases List.mem_cons.mp hq with rfl | hq
      · exact le_refl _
      · exact (List.pairwise_cons.mp hmono).1 q hq

/-- C2 counterexample: with read limit 2 and write limit 1, a single read
at t=0 followed by a write at t=0 makes the write raise (second result
`false`) although the window contains zero prior write-operation calls —
the claimed write-only counting would have allowed it. -/
theorem rateLimit_write_blocked_by_read :
    runCalls ⟨2, 1⟩ [((0 : Int), false), ((0 : Int), true)] []
        = [true, false]
    ∧ (([((0 : Int), false)].filter (fun p => p.2)).length = 0) := by
  decide

/-- C2 witness: the shared-counter theorem applied to a concrete
three-call sequence. -/
theorem runCalls_shared_counter_witness :
    runCalls ⟨2, 1⟩
        [((0 : Int), false), ((30 : Int), true), ((70 : Int), false)] []
      = allowSpec ⟨2, 1⟩
        [((0 : Int), false), ((30 : Int), true), ((70 : Int), false)] [] :=
  runCalls_shared_counter ⟨2, 1⟩
    [((0 : Int), false), ((30 : Int), true), ((70 : Int), false)]
    (by decide)

/-!
## Claim C7: edge-list deduplication in `find_connected_notes`
-/

/-- The dedup pass keeps a subsequence of the accumulated edge list, so
discovery order and the stored from/to direction are untouched. -/
theorem dedupConnsGo_sublist :
    ∀ (l : List ConnRec) (seen : List String), List.Sublist (dedupConnsGo l seen) l := by
  intro l
  induction l with
  | nil => intro seen; simp [dedupConnsGo]
  | cons c rest ih =>
    intro seen
    by_cases h : c.id ∈ seen
    · rw [dedupConnsGo, if_pos h]
      exact (ih seen).trans (List.sublist_cons_self c rest)
    · rw [dedupConnsGo, if_neg h]
      exact List.Sublist.cons₂ c (ih (c.id :: seen))

/-- The dedup pass emits pairwise-distinct edge ids, none already seen. -/
theorem dedupConnsGo_nodup :
    ∀ (l : List ConnRec) (seen : List String),
      ((dedupConnsGo l seen).map ConnRec.id).Nodup
        ∧ ∀ c ∈ dedupConnsGo l seen, c.id ∉ seen := by
  intro l
  induction l with
  | nil => intro seen; simp [dedupConnsGo]
  | cons c rest ih =>
    intro seen
    by_cases h : c.id ∈ seen
    · rw [dedupConnsGo, if_pos h]
      exact ih seen
    · rw [dedupConnsGo, if_neg h]
      have htail := ih (c.id :: seen)
      refine ⟨?_, ?_⟩
      · simp only [List.map_cons]
        refine List.Nodup.cons ?_ htail.1
        intro hx
        obtain ⟨d, hd, hdid⟩ := List.mem_map.mp hx
        exact (htail.2 d hd) (hdid ▸ List.mem_cons_self c.id seen)
      · intro d hd
        rcases List.mem_cons.mp hd with rfl | hd2
        · exact h
        · intro hds
          exact (htail.2 d hd2) (List.mem_cons_of_mem _ hds)

/-- Every accumulated edge id survives the dedup pass. -/
theorem dedupConnsGo_covers :
    ∀ (l : List ConnRec) (seen : List String) (c : ConnRec), c ∈ l →
      c.id ∈ seen ∨ c.id ∈ (dedupConnsGo l seen).map ConnRec.id := by
  intro l
  induction l with
  | nil => intro seen c h; simp at h
  | cons d rest ih =>
    intro seen c hc
    by_cases h : d.id ∈ seen
    · rw [dedupConnsGo, if_pos h]
      rcases List.mem_cons.mp hc with rfl | hc2
      · exact Or.inl h
      · exact ih seen c hc2
    · rw [dedupConnsGo, if_neg h]
      rcases List.mem_cons.mp hc with rfl | hc2
      · exact Or.inr (by simp)
      · rcases ih (d.id :: seen) c hc2 with hs | hs
        · rcases List.mem_cons.mp hs with heq | hs2
          · exact Or.inr (by simp [heq])
          · exact Or.inl hs2
        · exact Or.inr (List.mem_cons_of_mem _ hs)

/-- C7 (confirmed).  The returned `connections` list of
`find_connected_notes` has pairwise-distinct edge ids, is a subsequence of
the round-accumulated edge list (hence keeps discovery order and each
edge's original from/to direction), and covers every accumulated edge's id
— an edge matched by both the outgoing and the incoming query, in the same
or different rounds, appears exactly once. -/
theorem findConnected_edge_dedup (notesT : List NoteRec)
    (conns : List ConnRec) (noteId : String) (depth : Nat)
    (res : ConnResult)
    (h : findConnectedNotes notesT conns noteId depth = some res) :
    ((res.connections.map ConnRec.id).Nodup)
    ∧ List.Sublist res.connections
        ((bfsLoop notesT conns (min (max 1 depth) 5) [noteId] [noteId]
              [] []).1)
    ∧ ∀ c ∈ (bfsLoop notesT conns (min (max 1 depth) 5) [noteId] [noteId]
              [] []).1,
        c.id ∈ res.connections.map ConnRec.id := by
  simp only [findConnectedNotes] at h
  cases hf : notesT.find? (fun n => n.id = noteId) with
  | none => rw [hf] at h; exact absurd h (by simp)
  | some start =>
    rw [hf] at h
    simp only [Option.some.injEq] at h
    subst h
    refine ⟨(dedupConnsGo_nodup _ []).1, dedupConnsGo_sublist _ [], ?_⟩
    intro c hc
    rcases dedupConnsGo_covers _ [] c hc with hs | hs
    · simp at hs
    · exact hs

/-- Fixture: two notes joined by one connection. -/
def nrA : NoteRec :=
  { id := "na", title := "A", desktop_id := "d1", z_index := 0 }

/-- Fixture: the second note. -/
def nrB : NoteRec :=
  { id := "nb", title := "B", desktop_id := "d1", z_index := 1 }

/-- Fixture: the connection `na -> nb`, discovered by the outgoing query
in round 1 and again by the incoming query in round 2. -/
def cnAB : ConnRec :=
  { id := "c1", from_note_id := "na", to_note_id := "nb",
    desktop_id := "d1" }

/-- C7 witness: the dedup theorem applied to the two-note fixture, where
connection c1 is accumulated twice (rounds 1 and 2) and returned once. -/
theorem findConnected_edge_dedup_witness :
    (([cnAB].map ConnRec.id).Nodup)
    ∧ List.Sublist [cnAB]
        ((bfsLoop [nrA, nrB] [cnAB] 2 ["na"] ["na"] [] []).1) :=
  (fun h => ⟨h.1, h.2.1⟩)
    (findConnected_edge_dedup [nrA, nrB] [cnAB] "na" 2
      { root := noteBrief nrA, connected_notes := [noteBrief nrB],
        connections := [cnAB] } (by decide))

/-!
## Claims C9 and C10: stats short-circuit and flat-list/stats invariants
-/

/-- Lookup of one count in a stats dict. -/
def statLookup (s : List (String × Nat)) (k : String) : Option Nat :=
  (s.find? (fun p => p.1 = k)).map (fun p => p.2)

/-- C9 (corrected).  With zero desktops, `get_workspace_stats` returns all
five zero counts and `get_workspace_index` returns the empty tree and
flat lists, both after querying only the desktops table (plus the
workspaces lookup in the index) — but the index's `stats` dict carries
only the four keys desktops/notes/folders/connections: it never contains
an `assets` entry. -/
theorem zeroDesktops_shortCircuit :
    (∀ (t : Tables) (wsId : String),
      t.desktops.filter (fun d => d.workspace_id = wsId) = [] →
      getWorkspaceStats t wsId
        = ([("desktops", 0), ("notes", 0), ("folders", 0),
            ("connections", 0), ("assets", 0)], ["desktops"]))
    ∧ ∀ (t : Tables) (wsId : String) (ic : Bool) (ws : WorkspaceRec),
      t.workspaces.find? (fun w => w.id = wsId ∧ w.deleted_at = none)
          = some ws →
      t.desktops.filter (fun d => d.workspace_id = wsId) = [] →
      getWorkspaceIndex t wsId ic
        = (some { workspace := ws, tree := TForest.nil, flat_notes := [],
                  flat_folders := [],
                  stats := [("desktops", 0), ("notes", 0), ("folders", 0),
                            ("connections", 0)] },
           ["workspaces", "desktops"]) := by
  constructor
  · intro t wsId hfil
    rw [getWorkspaceStats, hfil]
    rfl
  · intro t wsId ic ws hfind hfil
    rw [getWorkspaceIndex, hfind, hfil]
    rfl

/-- Fixture: the workspace row of the zero-desktop tables. -/
def wsW1 : WorkspaceRec := { id := "w1", name := "W" }

/-- Fixture: a backend with one workspace and zero desktops. -/
def tblEmpty : Tables :=
  { workspaces := [wsW1], desktops := [], notes := [], folders := [],
    connections := [], assets := [] }

/-- C9 counterexample: on a zero-desktop workspace the index's stats dict
has exactly the keys desktops/notes/folders/connections — the claimed
zero `assets` count does not exist in `get_workspace_index`'s stats. -/
theorem indexStats_missing_assets :
    (getWorkspaceIndex tblEmpty "w1" false).1.map
        (fun r => r.stats.map Prod.fst)
      = some ["desktops", "notes", "folders", "connections"]
    ∧ "assets"
        ∉ (["desktops", "notes", "folders", "connections"] : List String) := by
  decide

/-- C9 witness: both short-circuits applied to the one-workspace,
zero-desktop backend. -/
theorem zeroDesktops_shortCircuit_witness :
    getWorkspaceStats tblEmpty "w1"
        = ([("desktops", 0), ("notes", 0), ("folders", 0),
            ("connections", 0), ("assets", 0)], ["desktops"])
    ∧ getWorkspaceIndex tblEmpty "w1" false
        = (some { workspace := wsW1, tree := TForest.nil, flat_notes := [],
                  flat_folders := [],
                  stats := [("desktops", 0), ("notes", 0), ("folders", 0),
                            ("connections", 0)] },
           ["workspaces", "desktops"]) :=
  ⟨zeroDesktops_shortCircuit.1 tblEmpty "w1" (by decide),
   zeroDesktops_shortCircuit.2 tblEmpty "w1" false wsW1 (by decide)
     (by decide)⟩

/-- Fixture: a workspace whose only desktop is its own parent (a
one-desktop parent cycle) and holds one note: the note is fetched and
counted but its desktop is reachable from no root. -/
def tblOrphan : Tables :=
  { workspaces := [wsW1],
    desktops := [{ id := "d1", workspace_id := "w1", name := "D",
                   parent_id := some "d1", position_order := 0 }],
    notes := [{ id := "n1", title := "N", desktop_id := "d1",
                z_index := 0 }],
    folders := [], connections := [], assets := [] }

/-- The index result produced for `tblOrphan`. -/
def resOrphan : IndexResult :=
  { workspace := wsW1, tree := TForest.nil,
    flat_notes := [{ id := "n1", title := "N", desktop_id := "d1" }],
    flat_folders := [],
    stats := [("desktops", 1), ("notes", 1), ("folders", 0),
              ("connections", 0)] }

/-- C10 (confirmed).  In every `get_workspace_index` result, the notes and
folders stats equal the lengths of the flat lists, which in turn equal the
number of note/folder rows fetched for the workspace's desktop id set —
regardless of whether the owning desktops appear in the tree.  On the
one-desktop parent-cycle fixture the tree holds 0 notes while
`flat_notes`/`stats.notes` hold 1: the flat data can strictly exceed the
nested tree. -/
theorem index_flat_counts :
    (∀ (t : Tables) (wsId : String) (ic : Bool) (res : IndexResult),
      (getWorkspaceIndex t wsId ic).1 = some res →
      statLookup res.stats "notes" = some res.flat_notes.length
      ∧ statLookup res.stats "folders" = some res.flat_folders.length
      ∧ res.flat_notes.length
          = (t.notes.filter (fun n => n.desktop_id
              ∈ (t.desktops.filter (fun d => d.workspace_id = wsId)).map
                  (fun d => d.id))).length
      ∧ res.flat_folders.length
          = (t.folders.filter (fun f => f.desktop_id
              ∈ (t.desktops.filter (fun d => d.workspace_id = wsId)).map
                  (fun d => d.id))).length)
    ∧ (getWorkspaceIndex tblOrphan "w1" false).1 = some resOrphan
    ∧ forestNoteTotal resOrphan.tree = 0
    ∧ resOrphan.flat_notes.length = 1 := by
  refine ⟨?_, by decide, by decide, by decide⟩
  intro t wsId ic res h
  rw [getWorkspaceIndex] at h
  cases hfind : t.workspaces.find?
      (fun w => w.id = wsId ∧ w.deleted_at = none) with
  | none => rw [hfind] at h; exact absurd h (by simp)
  | some ws =>
    rw [hfind] at h
    simp only at h
    set D := t.desktops.filter (fun d => d.workspace_id = wsId) with hD
    set S := List.insertionSort
      (fun a b => a.position_order ≤ b.position_order) D with hS
    have hperm : List.Perm S D := List.perm_insertionSort _ _
    by_cases hemp : (S.map (fun d => d.id)).isEmpty
    · rw [if_pos hemp] at h
      simp only [Option.some.injEq] at h
      subst h
      have hnilS : S = [] :=
        List.map_eq_nil_iff.mp (List.isEmpty_iff.mp hemp)
      have hnil : D = [] := (hnilS ▸ hperm).symm.eq_nil
      refine ⟨by rfl, by rfl, ?_, ?_⟩
      · rw [hnil]
        simp
      · rw [hnil]
        simp
    · rw [if_neg hemp] at h
      simp only [Option.some.injEq] at h
      subst h
      have hmemiff : ∀ x : String,
          (x ∈ S.map (fun d => d.id)) = (x ∈ D.map (fun d => d.id)) := by
        intro x
        exact propext (hperm.map (fun d => d.id)).mem_iff
      have hnotes : t.notes.filter
            (fun n => n.desktop_id ∈ S.map (fun d => d.id))
          = t.notes.filter
            (fun n => n.desktop_id ∈ D.map (fun d => d.id)) := by
        apply List.filter_congr
        intro n _
        rw [decide_eq_decide]
        rw [hmemiff n.desktop_id]
      have hfolders : t.folders.filter
            (fun f => f.desktop_id ∈ S.map (fun d => d.id))
          = t.folders.filter
            (fun f => f.desktop_id ∈ D.map (fun d => d.id)) := by
        apply List.filter_congr
        intro f _
        rw [decide_eq_decide]
        rw [hmemiff f.desktop_id]
      refine ⟨by simp [statLookup], by simp [statLookup], ?_, ?_⟩
      · simp only [List.length_map]
        have hlen := (List.perm_insertionSort
          (fun a b : NoteRec => a.z_index ≤ b.z_index)
          (t.notes.filter
            (fun n => n.desktop_id ∈ S.map (fun d => d.id)))).length_eq
        rw [hlen, hnotes]
      · simp only [List.length_map]
        rw [hfolders]

/-- C10 witness: the flat-count invariants applied to the parent-cycle
fixture. -/
theorem index_flat_counts_witness :
    statLookup resOrphan.stats "notes" = some resOrphan.flat_notes.length
    ∧ statLookup resOrphan.stats "folders"
        = some resOrphan.flat_folders.length :=
  (fun h => ⟨h.1, h.2.1⟩)
    (index_flat_counts.1 tblOrphan "w1" false resOrphan (by decide))

/-!
## Claim C8: hierarchy building and its side effects
-/

/-- C8 counterexample: `add_level` is not pure — after
`add_level([root], None, 0)` the input record carries the written
`"level"` key, so the input list is no longer equal to its original
value. -/
theorem addLevelStore_mutates_input :
    addLevelStore [mkDesk "r" none 0] 10 ≠ [mkDesk "r" none 0] := by
  decide

/-- C8 (corrected).  `build_tree` allocates fresh node dicts, but
`add_level` writes the `"level"` key into matched input records.  The
mutation is confined to that key: the final store has the input's length,
and each record is either untouched or differs from its input value only
in `level`, taking the level of an emitted row that shares its
`parent_id`. -/
theorem addLevelStore_only_level (L : List Desktop) (maxD : Nat) :
    (addLevelStore L maxD).length = L.length
    ∧ ∀ (i : Nat) (d d' : Desktop), L.get? i = some d →
        (addLevelStore L maxD).get? i = some d' →
        d' = d ∨ ∃ o ∈ addLevelTop L maxD,
          o.parent_id = d.parent_id ∧ d' = { d with level := o.level } := by
  constructor
  · simp [addLevelStore]
  · intro i d d' hd hd'
    rw [addLevelStore, List.get?_map, hd] at hd'
    simp only [Option.map_some', Option.some.injEq] at hd'
    cases hlast : ((addLevelTop L maxD).filter
        (fun o => o.parent_id = d.parent_id)).getLast? with
    | none =>
      rw [hlast] at hd'
      exact Or.inl hd'.symm
    | some o =>
      rw [hlast] at hd'
      have hne : (addLevelTop L maxD).filter
          (fun x => x.parent_id = d.parent_id) ≠ [] := by
        intro hnil
        rw [hnil] at hlast
        exact Option.noConfusion hlast
      have hlast2 := List.getLast?_eq_getLast_of_ne_nil hne
      rw [hlast2] at hlast
      have ho : o = ((addLevelTop L maxD).filter
          (fun x => x.parent_id = d.parent_id)).getLast hne :=
        ((Option.some.injEq _ _).mp hlast).symm
      have hmem : o ∈ (addLevelTop L maxD).filter
          (fun x => x.parent_id = d.parent_id) := by
        rw [ho]
        exact List.getLast_mem hne
      refine Or.inr ⟨o, List.mem_of_mem_filter hmem, ?_, hd'.symm⟩
      have := List.of_mem_filter hmem
      exact of_decide_eq_true this

/-- C8 witness: the only-level theorem applied to the single-root input at
index 0. -/
theorem addLevelStore_only_level_witness :
    ({ mkDesk "r" none 0 with level := some 0 } : Desktop)
        = mkDesk "r" none 0
    ∨ ∃ o ∈ addLevelTop [mkDesk "r" none 0] 10,
        o.parent_id = (mkDesk "r" none 0).parent_id
        ∧ ({ mkDesk "r" none 0 with level := some 0 } : Desktop)
            = { mkDesk "r" none 0 with level := o.level } :=
  (addLevelStore_only_level [mkDesk "r" none 0] 10).2 0 (mkDesk "r" none 0)
    { mkDesk "r" none 0 with level := some 0 } (by decide) (by decide)

/-!
## Claim C5: cycle safety and termination of the hierarchy builders

Spec-side notions: a desktop is *rooted* when a finite chain of
`parent_id` links inside the flat list reaches a `None` parent; a set of
rows is *parent-closed* when every member's parent is again a member (a
parent cycle, possibly with attached descendants, is parent-closed).  Both
builders emit only rooted desktops, no member of a parent-closed set is
rooted (given duplicate-free ids), and — the termination argument for the
unbounded `build_tree` recursion — the call paths visit pairwise-distinct
ids, so fuel `L.length + 1` is a fixpoint.
-/

/-- A desktop reachable from a root by parent links within `L`. -/
inductive Rooted (L : List Desktop) : Desktop → Prop
  | root (d : Desktop) : d ∈ L → d.parent_id = none → Rooted L d
  | child (d p : Desktop) : d ∈ L → p ∈ L → d.parent_id = some p.id →
      Rooted L p → Rooted L d

/-- A set of rows closed under parent references — the shape of a parent
cycle together with anything that feeds into it. -/
def ParentClosed (C : List Desktop) : Prop :=
  ∀ d ∈ C, ∃ p ∈ C, d.parent_id = some p.id

/-- With duplicate-free ids, equal ids mean equal rows. -/
theorem nodup_id_inj (L : List Desktop)
    (h : (L.map (fun x => x.id)).Nodup) :
    ∀ a ∈ L, ∀ b ∈ L, a.id = b.id → a = b := by
  induction L with
  | nil => intro a ha; exact absurd ha (by simp)
  | cons c rest ih =>
    intro a ha b hb hab
    have hhead : c.id ∉ rest.map (fun x => x.id) := by
      intro hmem
      exact (List.pairwise_cons.mp h).1 c.id hmem rfl
    have htail := (List.pairwise_cons.mp h).2
    rcases List.mem_cons.mp ha with rfl | ha2
    · rcases List.mem_cons.mp hb with rfl | hb2
      · rfl
      · exact absurd (hab ▸ List.mem_map_of_mem (fun x => x.id) hb2) hhead
    · rcases List.mem_cons.mp hb with rfl | hb2
      · exact absurd (hab ▸ List.mem_map_of_mem (fun x => x.id) ha2) hhead
      · exact ih htail a ha2 b hb2 hab

/-- No member of a parent-closed set is rooted (ids duplicate-free): a
rooted derivation would descend forever inside the set. -/
theorem parentClosed_not_rooted (L C : List Desktop)
    (hnd : (L.map (fun x => x.id)).Nodup)
    (hsub : ∀ x ∈ C, x ∈ L) (hpc : ParentClosed C) :
    ∀ d, Rooted L d → d ∈ C → False := by
  intro d hr
  induction hr with
  | root e heL hpar =>
    intro heC
    obtain ⟨p, -, hep⟩ := hpc e heC
    rw [hpar] at hep
    exact Option.noConfusion hep
  | child e p heL hpL hep hpr ih =>
    intro heC
    obtain ⟨p', hp'C, hep'⟩ := hpc e heC
    rw [hep] at hep'
    have hid : p.id = p'.id := Option.some.inj hep'
    have : p = p' := nodup_id_inj L hnd p hpL p' (hsub p' hp'C) hid
    exact ih (this ▸ hp'C)

/-- The active parent argument is `None` or the id of a rooted row. -/
def ParentOk (L : List Desktop) (parent : Option String) : Prop :=
  parent = none ∨ ∃ e ∈ L, Rooted L e ∧ parent = some e.id

/-- A row matched under a `ParentOk` parent is rooted. -/
theorem matched_rooted (L : List Desktop) (parent : Option String)
    (hpar : ParentOk L parent) (d : Desktop) (hdL : d ∈ L)
    (hdp : d.parent_id = parent) : Rooted L d := by
  rcases hpar with rfl | ⟨e, heL, her, rfl⟩
  · exact Rooted.root d hdL hdp
  · exact Rooted.child d e hdL heL hdp her

/-- Every id emitted by `add_level` belongs to a rooted row. -/
theorem addLevelGo_mem_rooted (L : List Desktop) (maxD : Nat) :
    ∀ gas parent level, ParentOk L parent →
      ∀ item ∈ addLevelGo L maxD gas parent level,
        ∃ d ∈ L, Rooted L d ∧ item.id = d.id := by
  intro gas
  induction gas with
  | zero => intro parent level _ item h; simp [addLevelGo] at h
  | succ g ih =>
    intro parent level hpar item h
    simp only [addLevelGo, List.mem_flatMap] at h
    obtain ⟨d, hdL, hitem⟩ := h
    by_cases hg : d.parent_id = parent ∧ level ≤ maxD
    · rw [if_pos hg] at hitem
      have hdr : Rooted L d := matched_rooted L parent hpar d hdL hg.1
      rcases List.mem_cons.mp hitem with rfl | h2
      · exact ⟨d, hdL, hdr, rfl⟩
      · exact ih (some d.id) (level + 1)
          (Or.inr ⟨d, hdL, hdr, rfl⟩) item h2
    · rw [if_neg hg] at hitem
      simp at hitem

/-- `forestIds` of the node-row fold used by `build_tree`. -/
theorem forestIds_fold (nbd : List (String × List NoteLite))
    (fbd : List (String × List FolderLite)) (level : Nat)
    (g : Desktop → TForest) :
    ∀ (M : List Desktop) (s : String),
      s ∈ forestIds (M.foldr (fun d acc =>
        TForest.node d.id d.name level (lookupGroup nbd d.id)
          (lookupGroup fbd d.id) (lookupGroup nbd d.id).length
          (lookupGroup fbd d.id).length (g d) acc) TForest.nil) →
      ∃ d ∈ M, s = d.id ∨ s ∈ forestIds (g d) := by
  intro M
  induction M with
  | nil => intro s h; simp [forestIds] at h
  | cons m M ih =>
    intro s h
    simp only [List.foldr_cons, forestIds, List.mem_cons,
      List.mem_append] at h
    rcases h with rfl | h | h
    · exact ⟨m, List.mem_cons_self m M, Or.inl rfl⟩
    · exact ⟨m, List.mem_cons_self m M, Or.inr h⟩
    · obtain ⟨d, hd, hs⟩ := ih s h
      exact ⟨d, List.mem_cons_of_mem m hd, hs⟩

/-- Every id in a `build_tree` forest belongs to a rooted row. -/
theorem buildTree_mem_rooted (nbd : List (String × List NoteLite))
    (fbd : List (String × List FolderLite)) (L : List Desktop) :
    ∀ fuel parent level, ParentOk L parent →
      ∀ s ∈ forestIds (buildTree nbd fbd L fuel parent level),
        ∃ d ∈ L, Rooted L d ∧ s = d.id := by
  intro fuel
  induction fuel with
  | zero => intro parent level _ s h; simp [buildTree, forestIds] at h
  | succ f ih =>
    intro parent level hpar s h
    rw [buildTree] at h
    obtain ⟨d, hdM, hs⟩ := forestIds_fold nbd fbd level _ _ s h
    have hdL : d ∈ L := (List.mem_filter.mp hdM).1
    have hdp : d.parent_id = parent :=
      of_decide_eq_true (List.mem_filter.mp hdM).2
    have hdr : Rooted L d := matched_rooted L parent hpar d hdL hdp
    rcases hs with rfl | hs
    · exact ⟨d, hdL, hdr, rfl⟩
    · exact ih (some d.id) (level + 1) (Or.inr ⟨d, hdL, hdr, rfl⟩) s hs

/-- The ghost call path of the `build_tree` recursion, most recent first:
`Chain L rpath p` holds when `p` is the parent argument reached by matching
the rows whose ids are `rpath` in turn, starting from `None`. -/
inductive Chain (L : List Desktop) : List String → Option String → Prop
  | nil : Chain L [] none
  | cons (d : Desktop) (rpath : List String) (p : Option String) :
      d ∈ L → d.parent_id = p → Chain L rpath p →
      Chain L (d.id :: rpath) (some d.id)

/-- Path entries are ids of rows of `L`. -/
theorem chain_mem_ids (L : List Desktop) :
    ∀ rpath p, Chain L rpath p → ∀ s ∈ rpath,
      s ∈ L.map (fun x => x.id) := by
  intro rpath p h
  induction h with
  | nil => intro s hs; simp at hs
  | cons d rpath' p' hdL hdp hch ih =>
    intro s hs
    rcases List.mem_cons.mp hs with rfl | hs
    · exact List.mem_map_of_mem _ hdL
    · exact ih s hs

/-- Every entry of a path starts its own sub-path. -/
theorem chain_suffix (L : List Desktop) :
    ∀ rpath p, Chain L rpath p → ∀ s ∈ rpath,
      ∃ suf, List.IsSuffix (s :: suf) rpath
        ∧ Chain L (s :: suf) (some s) := by
  intro rpath p h
  induction h with
  | nil => intro s hs; simp at hs
  | cons d rpath' p' hdL hdp hch ih =>
    intro s hs
    rcases List.mem_cons.mp hs with rfl | hs
    · exact ⟨rpath', List.suffix_refl _, Chain.cons d rpath' p' hdL hdp hch⟩
    · obtain ⟨suf, hsuf, hc⟩ := ih s hs
      exact ⟨suf, hsuf.trans (List.suffix_cons d.id rpath'), hc⟩

/-- Inversion: a path headed by `s` with parent argument `some s` was built
by matching a row with id `s`. -/
theorem chain_cons_inv (L : List Desktop) (rpath : List String)
    (p : Option String) (h : Chain L rpath p) :
    ∀ s suf, rpath = s :: suf → p = some s →
      ∃ e ∈ L, e.id = s ∧ Chain L suf e.parent_id := by
  cases h with
  | nil => intro s suf hr _; exact List.noConfusion hr
  | cons e rpath' p' heL hep hch =>
    intro s suf hr _
    injection hr with h1 h2
    refine ⟨e, heL, h1, ?_⟩
    rw [hep, ← h2]
    exact hch

/-- Inversion: a path whose parent argument is `some q` starts at `q`. -/
theorem chain_some_inv (L : List Desktop) (suf : List String)
    (p : Option String) (h : Chain L suf p) :
    ∀ q, p = some q → ∃ suf₂, suf = q :: suf₂ := by
  cases h with
  | nil => intro q hq; exact Option.noConfusion hq
  | cons e rpath' p' heL hep hch =>
    intro q hq
    exact ⟨rpath', by rw [← Option.some.inj hq]⟩

/-- The crux of termination: with duplicate-free ids, a row matched at the
current parent argument has not been visited on the path — a revisit would
force two equal entries in the duplicate-free path. -/
theorem chain_no_revisit (L : List Desktop)
    (hnd : (L.map (fun x => x.id)).Nodup) :
    ∀ rpath p, Chain L rpath p → rpath.Nodup →
      ∀ d ∈ L, d.parent_id = p → d.id ∉ rpath := by
  intro rpath p hch hnodup d hdL hdp hmem
  obtain ⟨suf, hsuf, hcs⟩ := chain_suffix L rpath p hch d.id hmem
  obtain ⟨e, heL, heid, hche⟩ :=
    chain_cons_inv L (d.id :: suf) (some d.id) hcs d.id suf rfl rfl
  have he : e = d := nodup_id_inj L hnd e heL d hdL heid
  subst he
  rw [hdp] at hche
  cases hch with
  | nil => simp at hmem
  | cons f rpath' p' hfL hfp hchf =>
    obtain ⟨suf₂, hsuf₂⟩ := chain_some_inv L suf (some f.id) hche f.id rfl
    subst hsuf₂
    rcases List.suffix_cons_iff.mp hsuf with heq | hsuf'
    · injection heq with h1 h2
      apply (List.nodup_cons.mp hnodup).1
      rw [← h2]
      exact List.mem_cons_self _ _
    · apply (List.nodup_cons.mp hnodup).1
      exact hsuf'.subset (by simp)

/-- A duplicate-free path is no longer than the row list. -/
theorem chain_length_le (L : List Desktop) (rpath : List String)
    (p : Option String) (hch : Chain L rpath p) (hnodup : rpath.Nodup) :
    rpath.length ≤ L.length := by
  have hsub : rpath ⊆ L.map (fun x => x.id) := fun s hs =>
    chain_mem_ids L rpath p hch s hs
  calc rpath.length ≤ (L.map (fun x => x.id)).length :=
        (List.subperm_of_subset hnodup hsub).length_le
    _ = L.length := List.length_map _ _

/-- Congruence for the node-row fold in the children argument. -/
theorem foldr_node_congr (nbd : List (String × List NoteLite))
    (fbd : List (String × List FolderLite)) (level : Nat)
    (g₁ g₂ : Desktop → TForest) :
    ∀ M : List Desktop, (∀ d ∈ M, g₁ d = g₂ d) →
      M.foldr (fun d acc =>
        TForest.node d.id d.name level (lookupGroup nbd d.id)
          (lookupGroup fbd d.id) (lookupGroup nbd d.id).length
          (lookupGroup fbd d.id).length (g₁ d) acc) TForest.nil
      = M.foldr (fun d acc =>
        TForest.node d.id d.name level (lookupGroup nbd d.id)
          (lookupGroup fbd d.id) (lookupGroup nbd d.id).length
          (lookupGroup fbd d.id).length (g₂ d) acc) TForest.nil := by
  intro M
  induction M with
  | nil => intro _; rfl
  | cons m M ih =>
    intro hall
    simp only [List.foldr_cons]
    rw [hall m (List.mem_cons_self m M),
      ih (fun d hd => hall d (List.mem_cons_of_mem m hd))]

/-- Fuel beyond `L.length + 1 - path.length` is irrelevant: the recursion
depth of the Python `build_tree` is bounded by the number of rows, because
call paths are duplicate-free. -/
theorem buildTree_fuel_aux (nbd : List (String × List NoteLite))
    (fbd : List (String × List FolderLite)) (L : List Desktop)
    (hnd : (L.map (fun x => x.id)).Nodup) :
    ∀ f rpath p level, Chain L rpath p → rpath.Nodup →
      L.length + 1 - rpath.length ≤ f →
      buildTree nbd fbd L f p level
        = buildTree nbd fbd L (L.length + 1 - rpath.length) p level := by
  intro f
  induction f with
  | zero =>
    intro rpath p level hch hnodup hle
    have := chain_length_le L rpath p hch hnodup
    omega
  | succ g ih =>
    intro rpath p level hch hnodup hle
    have hlen := chain_length_le L rpath p hch hnodup
    obtain ⟨b, hb⟩ : ∃ b, L.length + 1 - rpath.length = b + 1 :=
      ⟨L.length - rpath.length, by omega⟩
    rw [hb]
    simp only [buildTree]
    apply foldr_node_congr
    intro d hdM
    have hdL : d ∈ L := (List.mem_filter.mp hdM).1
    have hdp : d.parent_id = p :=
      of_decide_eq_true (List.mem_filter.mp hdM).2
    have hch' : Chain L (d.id :: rpath) (some d.id) :=
      Chain.cons d rpath p hdL hdp hch
    have hnodup' : (d.id :: rpath).Nodup :=
      List.nodup_cons.mpr
        ⟨chain_no_revisit L hnd rpath p hch hnodup d hdL hdp, hnodup⟩
    have hble : L.length + 1 - (d.id :: rpath).length ≤ g := by
      simp only [List.length_cons]
      omega
    have hstep := ih (d.id :: rpath) (some d.id) (level + 1) hch' hnodup'
      hble
    have hbeq : L.length + 1 - (d.id :: rpath).length = b := by
      simp only [List.length_cons]
      omega
    rw [hstep, hbeq]

/-- Any two sufficient fuels compute the same `build_tree` forest. -/
theorem buildTree_fuel_stable (nbd : List (String × List NoteLite))
    (fbd : List (String × List FolderLite)) (L : List Desktop)
    (hnd : (L.map (fun x => x.id)).Nodup) (f₁ f₂ : Nat)
    (h₁ : L.length + 1 ≤ f₁) (h₂ : L.length + 1 ≤ f₂) :
    buildTree nbd fbd L f₁ none 0 = buildTree nbd fbd L f₂ none 0 := by
  have e₁ := buildTree_fuel_aux nbd fbd L hnd f₁ [] none 0 Chain.nil
    List.nodup_nil (by simpa using h₁)
  have e₂ := buildTree_fuel_aux nbd fbd L hnd f₂ [] none 0 Chain.nil
    List.nodup_nil (by simpa using h₂)
  exact e₁.trans e₂.symm

/-- C5 (confirmed).  On duplicate-free ids, for any parent-closed set `C`
of rows of the input (a parent cycle with whatever feeds into it), both
builders terminate and omit every member of `C`: no fuel ever makes a
member's id appear in the `build_tree` forest, the result is the same for
every sufficient fuel (the Python recursion terminates, depth ≤ number of
rows), and `add_level` emits no row with a member's id. -/
theorem cycle_safety (L C : List Desktop) (d : Desktop) (maxD : Nat)
    (nbd : List (String × List NoteLite))
    (fbd : List (String × List FolderLite))
    (hnd : (L.map (fun x => x.id)).Nodup)
    (hsub : ∀ x ∈ C, x ∈ L) (hpc : ParentClosed C) (hd : d ∈ C) :
    (∀ fuel level, d.id ∉ forestIds (buildTree nbd fbd L fuel none level))
    ∧ (∀ item ∈ addLevelTop L maxD, item.id ≠ d.id)
    ∧ (∀ f₁ f₂, L.length + 1 ≤ f₁ → L.length + 1 ≤ f₂ →
        buildTree nbd fbd L f₁ none 0 = buildTree nbd fbd L f₂ none 0) := by
  have hdL : d ∈ L := hsub d hd
  have hdro : ¬ Rooted L d := fun hr =>
    parentClosed_not_rooted L C hnd hsub hpc d hr hd
  refine ⟨?_, ?_, fun f₁ f₂ h₁ h₂ =>
    buildTree_fuel_stable nbd fbd L hnd f₁ f₂ h₁ h₂⟩
  · intro fuel level hmem
    obtain ⟨e, heL, her, hse⟩ := buildTree_mem_rooted nbd fbd L fuel none
      level (Or.inl rfl) d.id hmem
    have : e = d := nodup_id_inj L hnd e heL d hdL hse.symm
    exact hdro (this ▸ her)
  · intro item hitem hid
    obtain ⟨e, heL, her, hie⟩ := addLevelGo_mem_rooted L maxD
      (maxD + 1 - 0) none 0 (Or.inl rfl) item hitem
    have : e = d := nodup_id_inj L hnd e heL d hdL (hie.symm.trans hid)
    exact hdro (this ▸ her)

/-- The spec's cycle fixture: desktops A and B, each the other's parent. -/
def cycList : List Desktop :=
  [mkDesk "da" (some "db") 0, mkDesk "db" (some "da") 1]

/-- C5 witness: cycle safety applied to the two-desktop cycle — member
`da` is absent from the fuel-3 forest, and fuels 3 and 4 agree. -/
theorem cycle_safety_witness :
    (mkDesk "da" (some "db") 0).id
        ∉ forestIds (buildTree [] [] cycList 3 none 0)
    ∧ buildTree [] [] cycList 3 none 0
        = buildTree [] [] cycList 4 none 0 :=
  ⟨(cycle_safety cycList cycList (mkDesk "da" (some "db") 0) 10 [] []
      (by decide) (by decide) (by unfold ParentClosed; decide)
      (by decide)).1 3 0,
   (cycle_safety cycList cycList (mkDesk "da" (some "db") 0) 10 [] []
      (by decide) (by decide) (by unfold ParentClosed; decide)
      (by decide)).2.2 3 4 (by decide)
      (by decide)⟩

/-!
## Claim C6: level assignment and sibling ordering
-/

/-- The level invariant of a forest: every node at the current nesting
carries `expect`, its children `expect + 1`, recursively. -/
def LevelsAt : Nat → TForest → Prop
  | _, TForest.nil => True
  | expect, TForest.node _ _ l _ _ _ _ cs sibs =>
      l = expect ∧ LevelsAt (expect + 1) cs ∧ LevelsAt expect sibs

/-- The ids of the top-level nodes of a forest, in order. -/
def forestTopIds : TForest → List String
  | TForest.nil => []
  | TForest.node i _ _ _ _ _ _ _ sibs => i :: forestTopIds sibs

/-- `a`'s row precedes `b`'s row in `position_order` (phrased over all rows
carrying those ids; with duplicate-free ids that is the one row each). -/
def posLe (L : List Desktop) (a b : String) : Prop :=
  ∀ da ∈ L, da.id = a → ∀ db ∈ L, db.id = b →
    da.position_order ≤ db.position_order

/-- Every node's children appear in ascending `position_order`,
recursively. -/
def ChildrenOrdered (L : List Desktop) : TForest → Prop
  | TForest.nil => True
  | TForest.node _ _ _ _ _ _ _ cs sibs =>
      List.Pairwise (posLe L) (forestTopIds cs)
      ∧ ChildrenOrdered L cs ∧ ChildrenOrdered L sibs

/-- The level invariant for the node-row fold. -/
theorem levelsAt_fold (nbd : List (String × List NoteLite))
    (fbd : List (String × List FolderLite)) (level : Nat)
    (g : Desktop → TForest) (hg : ∀ d, LevelsAt (level + 1) (g d)) :
    ∀ M : List Desktop, LevelsAt level (M.foldr (fun d acc =>
      TForest.node d.id d.name level (lookupGroup nbd d.id)
        (lookupGroup fbd d.id) (lookupGroup nbd d.id).length
        (lookupGroup fbd d.id).length (g d) acc) TForest.nil) := by
  intro M
  induction M with
  | nil => exact trivial
  | cons m M ih => exact ⟨rfl, hg m, ih⟩

/-- Level correctness of `build_tree`: the forest built at `level` satisfies
the level invariant — roots get the starting level, each child one more
than its parent. -/
theorem buildTree_levelsAt (nbd : List (String × List NoteLite))
    (fbd : List (String × List FolderLite)) (L : List Desktop) :
    ∀ fuel parent level,
      LevelsAt level (buildTree nbd fbd L fuel parent level) := by
  intro fuel
  induction fuel with
  | zero => intro parent level; exact trivial
  | succ f ih =>
    intro parent level
    rw [buildTree]
    exact levelsAt_fold nbd fbd level _
      (fun d => ih (some d.id) (level + 1)) _

/-- The top ids of the node-row fold are the matched rows' ids in list
order. -/
theorem forestTopIds_fold (nbd : List (String × List NoteLite))
    (fbd : List (String × List FolderLite)) (level : Nat)
    (g : Desktop → TForest) :
    ∀ M : List Desktop, forestTopIds (M.foldr (fun d acc =>
      TForest.node d.id d.name level (lookupGroup nbd d.id)
        (lookupGroup fbd d.id) (lookupGroup nbd d.id).length
        (lookupGroup fbd d.id).length (g d) acc) TForest.nil)
      = M.map (fun d => d.id) := by
  intro M
  induction M with
  | nil => rfl
  | cons m M ih =>
    simp only [List.foldr_cons, forestTopIds, List.map_cons]
    exact congrArg _ ih

/-- The children-ordering invariant for the node-row fold. -/
theorem childrenOrdered_fold (nbd : List (String × List NoteLite))
    (fbd : List (String × List FolderLite)) (L : List Desktop)
    (level : Nat) (g : Desktop → TForest)
    (hg : ∀ d, List.Pairwise (posLe L) (forestTopIds (g d))
      ∧ ChildrenOrdered L (g d)) :
    ∀ M : List Desktop, ChildrenOrdered L (M.foldr (fun d acc =>
      TForest.node d.id d.name level (lookupGroup nbd d.id)
        (lookupGroup fbd d.id) (lookupGroup nbd d.id).length
        (lookupGroup fbd d.id).length (g d) acc) TForest.nil) := by
  intro M
  induction M with
  | nil => exact trivial
  | cons m M ih => exact ⟨(hg m).1, (hg m).2, ih⟩

/-- Sibling ordering of `build_tree`: when the flat input is sorted by
ascending `position_order` (as the fetching query orders it) and ids are
duplicate-free, the roots and every node's children appear in ascending
`position_order`. -/
theorem buildTree_childrenOrdered (nbd : List (String × List NoteLite))
    (fbd : List (String × List FolderLite)) (L : List Desktop)
    (hnd : (L.map (fun x => x.id)).Nodup)
    (hsort : List.Pairwise
      (fun a b : Desktop => a.position_order ≤ b.position_order) L) :
    ∀ fuel parent level,
      List.Pairwise (posLe L)
        (forestTopIds (buildTree nbd fbd L fuel parent level))
      ∧ ChildrenOrdered L (buildTree nbd fbd L fuel parent level) := by
  intro fuel
  induction fuel with
  | zero => intro parent level; exact ⟨List.Pairwise.nil, trivial⟩
  | succ f ih =>
    intro parent level
    rw [buildTree]
    constructor
    · rw [forestTopIds_fold]
      have hM : List.Pairwise
          (fun a b : Desktop => a.position_order ≤ b.position_order)
          (L.filter (fun d => d.parent_id = parent)) :=
        hsort.sublist (List.filter_sublist L)
      rw [List.pairwise_map]
      refine hM.imp_of_mem ?_
      intro a b ha hb hab
      intro da hda hdaid db hdb hdbid
      have h1 : da = a := nodup_id_inj L hnd da hda a
        ((List.mem_filter.mp ha).1) hdaid
      have h2 : db = b := nodup_id_inj L hnd db hdb b
        ((List.mem_filter.mp hb).1) hdbid
      rw [h1, h2]
      exact hab
    · exact childrenOrdered_fold nbd fbd L level _
        (fun d => ih (some d.id) (level + 1)) _

/-- Structure of the `add_level` output: every emitted row either was
matched at the call's own parent/level, or is the child of another emitted
row with exactly one more level. -/
theorem addLevelGo_levels (L : List Desktop) (maxD : Nat) :
    ∀ gas parent level, ∀ c ∈ addLevelGo L maxD gas parent level,
      (c.parent_id = parent ∧ c.level = some level)
      ∨ ∃ p ∈ addLevelGo L maxD gas parent level,
          c.parent_id = some p.id
          ∧ ∃ lp, p.level = some lp ∧ c.level = some (lp + 1) := by
  intro gas
  induction gas with
  | zero => intro parent level c hc; simp [addLevelGo] at hc
  | succ g ih =>
    intro parent level c hc
    simp only [addLevelGo, List.mem_flatMap] at hc
    obtain ⟨d, hdL, hcd⟩ := hc
    by_cases hg : d.parent_id = parent ∧ level ≤ maxD
    · rw [if_pos hg] at hcd
      have hhead : ({ d with level := some level } : Desktop)
          ∈ addLevelGo L maxD (g + 1) parent level := by
        simp only [addLevelGo, List.mem_flatMap]
        exact ⟨d, hdL, by rw [if_pos hg]; exact List.mem_cons_self _ _⟩
      rcases List.mem_cons.mp hcd with rfl | h2
      · exact Or.inl ⟨hg.1, rfl⟩
      · rcases ih (some d.id) (level + 1) c h2 with ⟨hcp, hcl⟩ | hrec
        · exact Or.inr ⟨{ d with level := some level }, hhead, hcp,
            level, rfl, hcl⟩
        · obtain ⟨p, hpR, hcp, lp, hpl, hcl⟩ := hrec
          have hpmem : p ∈ addLevelGo L maxD (g + 1) parent level := by
            simp only [addLevelGo, List.mem_flatMap]
            exact ⟨d, hdL, by
              rw [if_pos hg]
              exact List.mem_cons_of_mem _ hpR⟩
          exact Or.inr ⟨p, hpmem, hcp, lp, hpl, hcl⟩
    · rw [if_neg hg] at hcd
      simp at hcd

/-- `x` is an (iterated) child of the call with parent argument `p`: the
rows eligible for emission anywhere inside that call of `add_level`. -/
inductive Desc (L : List Desktop) (p : Option String) : Desktop → Prop
  | base (d : Desktop) : d ∈ L → d.parent_id = p → Desc L p d
  | step (e d : Desktop) : Desc L p e → d ∈ L → d.parent_id = some e.id →
      Desc L p d

/-- Subjects of `Desc` are rows of the list. -/
theorem desc_mem (L : List Desktop) (p : Option String) (x : Desktop)
    (h : Desc L p x) : x ∈ L := by
  cases h with
  | base d hdL _ => exact hdL
  | step e d _ hdL _ => exact hdL

/-- Descendants of an emitted row are descendants of its call. -/
theorem desc_trans (L : List Desktop) (p : Option String) (d : Desktop)
    (h1 : Desc L p d) : ∀ x, Desc L (some d.id) x → Desc L p x := by
  intro x h2
  induction h2 with
  | base y hyL hyp => exact Desc.step d y h1 hyL hyp
  | step e y hde hyL hyp ih => exact Desc.step e y ih hyL hyp

/-- Every emitted row is a `Desc` of the call's parent argument, changed
only in its `level` key. -/
theorem addLevelGo_desc (L : List Desktop) (maxD : Nat) :
    ∀ gas parent level r, r ∈ addLevelGo L maxD gas parent level →
      ∃ x ∈ L, Desc L parent x ∧ r = { x with level := r.level } := by
  intro gas
  induction gas with
  | zero => intro parent level r hr; simp [addLevelGo] at hr
  | succ g ih =>
    intro parent level r hr
    simp only [addLevelGo, List.mem_flatMap] at hr
    obtain ⟨d, hdL, hrd⟩ := hr
    by_cases hg : d.parent_id = parent ∧ level ≤ maxD
    · rw [if_pos hg] at hrd
      rcases List.mem_cons.mp hrd with rfl | h2
      · exact ⟨d, hdL, Desc.base d hdL hg.1, rfl⟩
      · obtain ⟨x, hxL, hdx, hrx⟩ := ih (some d.id) (level + 1) r h2
        exact ⟨x, hxL, desc_trans L parent d (Desc.base d hdL hg.1) x hdx,
          hrx⟩
    · rw [if_neg hg] at hrd
      simp at hrd

/-- A path row's `Desc`-call argument lies on the path: climbing from any
path entry only revisits the path. -/
theorem chain_desc_anc (L : List Desktop)
    (hnd : (L.map (fun x => x.id)).Nodup) (rpath : List String)
    (p : Option String) (hch : Chain L rpath p) :
    ∀ (x : Desktop) (t : String), Desc L (some t) x → x.id ∈ rpath →
      t ∈ rpath := by
  have hstep : ∀ x ∈ L, x.id ∈ rpath → ∀ z, x.parent_id = some z →
      z ∈ rpath := by
    intro x hxL hxr z hxz
    obtain ⟨suf, hsuf, hcs⟩ := chain_suffix L rpath p hch x.id hxr
    obtain ⟨e, heL, heid, hche⟩ :=
      chain_cons_inv L (x.id :: suf) (some x.id) hcs x.id suf rfl rfl
    have he : e = x := nodup_id_inj L hnd e heL x hxL heid
    subst he
    rw [hxz] at hche
    obtain ⟨suf₂, rfl⟩ := chain_some_inv L suf (some z) hche z rfl
    exact hsuf.subset (List.mem_cons_of_mem _ (List.mem_cons_self _ _))
  intro x t hdesc
  induction hdesc with
  | base y hyL hyp =>
    intro hyr
    exact hstep y hyL hyr t hyp
  | step e y hde hyL hyp ih =>
    intro hyr
    exact ih (hstep y hyL hyr e.id hyp)

/-- No `Desc` of a freshly matched row is matched back at the current
parent argument: the recursion never revisits the call it came from. -/
theorem desc_parent_ne (L : List Desktop)
    (hnd : (L.map (fun x => x.id)).Nodup) (rpath : List String)
    (parent : Option String) (hch : Chain L rpath parent) (t : String)
    (hfresh : t ∉ rpath) :
    ∀ x, Desc L (some t) x → x.parent_id ≠ parent := by
  have hparent : parent = none ∨ ∃ s ∈ rpath, parent = some s := by
    cases hch with
    | nil => exact Or.inl rfl
    | cons d rp q hdL hdp hc =>
      exact Or.inr ⟨d.id, List.mem_cons_self _ _, rfl⟩
  intro x hx hxp
  cases hx with
  | base y hyL hyp =>
    rcases hparent with rfl | ⟨s, hs, rfl⟩
    · rw [hxp] at hyp
      exact Option.noConfusion hyp
    · rw [hxp] at hyp
      have : s = t := Option.some.inj hyp
      exact hfresh (this ▸ hs)
  | step e y hde hyL hyp =>
    rcases hparent with rfl | ⟨s, hs, rfl⟩
    · rw [hxp] at hyp
      exact Option.noConfusion hyp
    · rw [hxp] at hyp
      have hse : s = e.id := Option.some.inj hyp
      exact hfresh (chain_desc_anc L hnd rpath (some s) hch e t hde
        (hse ▸ hs))

/-- Two `Desc` derivations for the same row merge: either the call
arguments coincide, or one argument's row is itself a `Desc` of the
other. -/
theorem desc_merge (L : List Desktop)
    (hnd : (L.map (fun x => x.id)).Nodup) :
    ∀ (x : Desktop) (a : String), Desc L (some a) x →
      ∀ b, Desc L (some b) x →
        a = b ∨ (∃ e ∈ L, e.id = a ∧ Desc L (some b) e)
          ∨ (∃ e ∈ L, e.id = b ∧ Desc L (some a) e) := by
  intro x a h1
  induction h1 with
  | base y hyL hyp =>
    intro b h2
    cases h2 with
    | base _ hyL2 hyp2 =>
      rw [hyp] at hyp2
      exact Or.inl (Option.some.inj hyp2)
    | step e _ hde hyL2 hyp2 =>
      rw [hyp] at hyp2
      exact Or.inr (Or.inl ⟨e, desc_mem L (some b) e hde,
        (Option.some.inj hyp2).symm, hde⟩)
  | step e y hde hyL hyp ih =>
    intro b h2
    cases h2 with
    | base _ hyL2 hyp2 =>
      rw [hyp] at hyp2
      exact Or.inr (Or.inr ⟨e, desc_mem L (some a) e hde,
        Option.some.inj hyp2, hde⟩)
    | step e₂ _ hde2 hyL2 hyp2 =>
      rw [hyp] at hyp2
      have : e₂ = e := nodup_id_inj L hnd e₂
        (desc_mem L (some b) e₂ hde2) e (desc_mem L (some a) e hde)
        (Option.some.inj hyp2).symm
      exact ih b (this ▸ hde2)

/-- Sibling subtrees are disjoint: no row is a `Desc` of two distinct rows
matched at the same call. -/
theorem desc_disjoint (L : List Desktop)
    (hnd : (L.map (fun x => x.id)).Nodup) (rpath : List String)
    (parent : Option String) (hch : Chain L rpath parent)
    (hnodup : rpath.Nodup) (d₁ d₂ : Desktop) (h1L : d₁ ∈ L) (h2L : d₂ ∈ L)
    (hp1 : d₁.parent_id = parent) (hp2 : d₂.parent_id = parent)
    (hne : d₁ ≠ d₂) :
    ∀ x, Desc L (some d₁.id) x → Desc L (some d₂.id) x → False := by
  intro x ha hb
  have hf1 : d₁.id ∉ rpath :=
    chain_no_revisit L hnd rpath parent hch hnodup d₁ h1L hp1
  have hf2 : d₂.id ∉ rpath :=
    chain_no_revisit L hnd rpath parent hch hnodup d₂ h2L hp2
  rcases desc_merge L hnd x d₁.id ha d₂.id hb with heq
    | ⟨e, heL, heid, hdesc⟩ | ⟨e, heL, heid, hdesc⟩
  · exact hne (nodup_id_inj L hnd d₁ h1L d₂ h2L heq)
  · have he : e = d₁ := nodup_id_inj L hnd e heL d₁ h1L heid
    subst he
    exact desc_parent_ne L hnd rpath parent hch d₂.id hf2 e hdesc hp1
  · have he : e = d₂ := nodup_id_inj L hnd e heL d₂ h2L heid
    subst he
    exact desc_parent_ne L hnd rpath parent hch d₁.id hf1 e hdesc hp2

/-- Pairwise over a `flatMap`, from pairwise inside each block and a
pairwise cross-block guarantee. -/
theorem pairwise_flatMap {α β : Type} (R : β → β → Prop)
    (f : α → List β) :
    ∀ M : List α, (∀ x ∈ M, List.Pairwise R (f x)) →
      List.Pairwise (fun x y => ∀ a ∈ f x, ∀ b ∈ f y, R a b) M →
      List.Pairwise R (M.flatMap f) := by
  intro M
  induction M with
  | nil => intro _ _; simp
  | cons m M ih =>
    intro hall hcross
    rw [List.flatMap_cons, List.pairwise_append]
    refine ⟨hall m (List.mem_cons_self m M),
      ih (fun x hx => hall x (List.mem_cons_of_mem m hx))
        (List.pairwise_cons.mp hcross).2, ?_⟩
    intro a ha b hb
    obtain ⟨y, hy, hby⟩ := List.mem_flatMap.mp hb
    exact (List.pairwise_cons.mp hcross).1 y hy a ha b hby

/-- Sibling ordering of the flat `add_level` output: on duplicate-free,
position-sorted input, any two emitted rows sharing a `parent_id` appear
in ascending `position_order` — rows of one call are emitted in input
order, a subtree never re-emits at an ancestor's parent argument, and
sibling subtrees are disjoint. -/
theorem addLevelGo_sibling_sorted (L : List Desktop) (maxD : Nat)
    (hnd : (L.map (fun x => x.id)).Nodup)
    (hsort : List.Pairwise
      (fun a b : Desktop => a.position_order ≤ b.position_order) L) :
    ∀ gas rpath parent level, Chain L rpath parent → rpath.Nodup →
      List.Pairwise (fun a b : Desktop =>
        a.parent_id = b.parent_id → a.position_order ≤ b.position_order)
        (addLevelGo L maxD gas parent level) := by
  intro gas
  induction gas with
  | zero =>
    intro rpath parent level _ _
    simp only [addLevelGo]
    exact List.Pairwise.nil
  | succ g ih =>
    intro rpath parent level hch hnodup
    simp only [addLevelGo]
    have hnodL : L.Nodup := List.Nodup.of_map (fun x => x.id) hnd
    apply pairwise_flatMap
    · intro d hdL
      by_cases hg : d.parent_id = parent ∧ level ≤ maxD
      · rw [if_pos hg]
        have hfresh : d.id ∉ rpath :=
          chain_no_revisit L hnd rpath parent hch hnodup d hdL hg.1
        rw [List.pairwise_cons]
        constructor
        · intro r hr hpar
          obtain ⟨x, hxL, hdx, hrx⟩ :=
            addLevelGo_desc L maxD g (some d.id) (level + 1) r hr
          have hxne : x.parent_id ≠ parent :=
            desc_parent_ne L hnd rpath parent hch d.id hfresh x hdx
          have hxp : x.parent_id = parent := by
            rw [show r.parent_id = x.parent_id by rw [hrx]] at hpar
            rw [← hpar]
            exact hg.1
          exact absurd hxp hxne
        · exact ih (d.id :: rpath) (some d.id) (level + 1)
            (Chain.cons d rpath parent hdL hg.1 hch)
            (List.nodup_cons.mpr ⟨hfresh, hnodup⟩)
      · rw [if_neg hg]
        exact List.Pairwise.nil
    · refine (hsort.and hnodL).imp_of_mem ?_
      intro d e hdL heL hr a ha b hb
      by_cases hgd : d.parent_id = parent ∧ level ≤ maxD
      · by_cases hge : e.parent_id = parent ∧ level ≤ maxD
        · rw [if_pos hgd] at ha
          rw [if_pos hge] at hb
          have hfd : d.id ∉ rpath :=
            chain_no_revisit L hnd rpath parent hch hnodup d hdL hgd.1
          have hfe : e.id ∉ rpath :=
            chain_no_revisit L hnd rpath parent hch hnodup e heL hge.1
          rcases List.mem_cons.mp ha with rfl | ha2
          · rcases List.mem_cons.mp hb with rfl | hb2
            · intro _
              exact hr.1
            · intro hpar
              obtain ⟨x, hxL, hdx, hrx⟩ :=
                addLevelGo_desc L maxD g (some e.id) (level + 1) b hb2
              have hxne : x.parent_id ≠ parent :=
                desc_parent_ne L hnd rpath parent hch e.id hfe x hdx
              refine absurd ?_ hxne
              rw [show b.parent_id = x.parent_id by rw [hrx]] at hpar
              rw [← hpar]
              exact hgd.1
          · rcases List.mem_cons.mp hb with rfl | hb2
            · intro hpar
              obtain ⟨x, hxL, hdx, hrx⟩ :=
                addLevelGo_desc L maxD g (some d.id) (level + 1) a ha2
              have hxne : x.parent_id ≠ parent :=
                desc_parent_ne L hnd rpath parent hch d.id hfd x hdx
              refine absurd ?_ hxne
              rw [show a.parent_id = x.parent_id by rw [hrx]] at hpar
              rw [hpar]
              exact hge.1
            · intro hpar
              obtain ⟨x, hxL, hdx, hrx⟩ :=
                addLevelGo_desc L maxD g (some d.id) (level + 1) a ha2
              obtain ⟨x₂, hx2L, hdx2, hrx2⟩ :=
                addLevelGo_desc L maxD g (some e.id) (level + 1) b hb2
              have hq : x.parent_id = x₂.parent_id := by
                rw [show a.parent_id = x.parent_id by rw [hrx]] at hpar
                rw [show b.parent_id = x₂.parent_id by rw [hrx2]] at hpar
                exact hpar
              exfalso
              cases hdx with
              | base y hyL hyp =>
                cases hdx2 with
                | base y₂ hy2L hyp2 =>
                  rw [hyp, hyp2] at hq
                  have := nodup_id_inj L hnd d hdL e heL
                    (Option.some.inj hq)
                  rw [this] at hr
                  exact hr.2 rfl
                | step e₂ y₂ hde2 hy2L hyp2 =>
                  rw [hyp, hyp2] at hq
                  have he2 : e₂ = d := nodup_id_inj L hnd e₂
                    (desc_mem L (some e.id) e₂ hde2) d hdL
                    (Option.some.inj hq).symm
                  subst he2
                  exact desc_parent_ne L hnd rpath parent hch e.id hfe
                    e₂ hde2 hgd.1
              | step e₁ y hde1 hyL hyp =>
                cases hdx2 with
                | base y₂ hy2L hyp2 =>
                  rw [hyp, hyp2] at hq
                  have he1 : e₁ = e := nodup_id_inj L hnd e₁
                    (desc_mem L (some d.id) e₁ hde1) e heL
                    (Option.some.inj hq)
                  subst he1
                  exact desc_parent_ne L hnd rpath parent hch d.id hfd
                    e₁ hde1 hge.1
                | step e₂ y₂ hde2 hy2L hyp2 =>
                  rw [hyp, hyp2] at hq
                  have he12 : e₁ = e₂ := nodup_id_inj L hnd e₁
                    (desc_mem L (some d.id) e₁ hde1) e₂
                    (desc_mem L (some e.id) e₂ hde2)
                    (Option.some.inj hq)
                  subst he12
                  exact desc_disjoint L hnd rpath parent hch hnodup d e
                    hdL heL hgd.1 hge.1 (fun hde => hr.2 hde) e₁ hde1
                    hde2
        · rw [if_neg hge] at hb
          simp at hb
      · rw [if_neg hgd] at ha
        simp at ha

/-- C6 (confirmed).  `build_tree` satisfies the level invariant (roots at
level 0, children one deeper), and with a duplicate-free, position-sorted
input its roots and every node's children appear in ascending
`position_order`; in the `add_level` output every row with an absent
parent carries level 0, every row with a parent reference has an emitted
parent row of that id exactly one level up, and any two emitted rows
sharing a `parent_id` appear in ascending `position_order`. -/
theorem hierarchy_level_structure (L : List Desktop) (maxD : Nat)
    (nbd : List (String × List NoteLite))
    (fbd : List (String × List FolderLite))
    (hnd : (L.map (fun x => x.id)).Nodup)
    (hsort : List.Pairwise
      (fun a b : Desktop => a.position_order ≤ b.position_order) L) :
    (∀ fuel, LevelsAt 0 (buildTree nbd fbd L fuel none 0))
    ∧ (∀ fuel, List.Pairwise (posLe L)
          (forestTopIds (buildTree nbd fbd L fuel none 0))
        ∧ ChildrenOrdered L (buildTree nbd fbd L fuel none 0))
    ∧ (∀ item ∈ addLevelTop L maxD,
        item.parent_id = none → item.level = some 0)
    ∧ (∀ c ∈ addLevelTop L maxD, ∀ pid, c.parent_id = some pid →
        ∃ p ∈ addLevelTop L maxD, p.id = pid
          ∧ ∃ lp, p.level = some lp ∧ c.level = some (lp + 1))
    ∧ List.Pairwise (fun a b : Desktop =>
        a.parent_id = b.parent_id → a.position_order ≤ b.position_order)
      (addLevelTop L maxD) := by
  refine ⟨fun fuel => buildTree_levelsAt nbd fbd L fuel none 0,
    fun fuel => buildTree_childrenOrdered nbd fbd L hnd hsort fuel none 0,
    ?_, ?_,
    addLevelGo_sibling_sorted L maxD hnd hsort (maxD + 1 - 0) [] none 0
      Chain.nil List.nodup_nil⟩
  · intro item hitem hpar
    rcases addLevelGo_levels L maxD (maxD + 1 - 0) none 0 item hitem with
      ⟨-, hl⟩ | ⟨p, -, hcp, -⟩
    · exact hl
    · rw [hpar] at hcp
      exact Option.noConfusion hcp
  · intro c hc pid hcp
    rcases addLevelGo_levels L maxD (maxD + 1 - 0) none 0 c hc with
      ⟨hp, -⟩ | ⟨p, hpmem, hcp', lp, hpl, hcl⟩
    · rw [hcp] at hp
      exact Option.noConfusion hp
    · rw [hcp] at hcp'
      exact ⟨p, hpmem, (Option.some.inj hcp').symm, lp, hpl, hcl⟩

/-- Fixture: a root and one child. -/
def pairList : List Desktop :=
  [mkDesk "r" none 0, mkDesk "c" (some "r") 1]

/-- C6 witness: the level-structure theorem applied to the root/child
fixture — the fuel-3 tree satisfies the level invariant, the emitted
child row has its parent row one level up, and the flat output is
sibling-sorted. -/
theorem hierarchy_level_structure_witness :
    LevelsAt 0 (buildTree [] [] pairList 3 none 0)
    ∧ (∃ p ∈ addLevelTop pairList 10, p.id = "r"
        ∧ ∃ lp, p.level = some lp
        ∧ (Desktop.level { mkDesk "c" (some "r") 1 with level := some 1 })
            = some (lp + 1))
    ∧ List.Pairwise (fun a b : Desktop =>
        a.parent_id = b.parent_id → a.position_order ≤ b.position_order)
      (addLevelTop pairList 10) :=
  ⟨(hierarchy_level_structure pairList 10 [] [] (by decide)
      (by decide)).1 3,
   (hierarchy_level_structure pairList 10 [] [] (by decide)
      (by decide)).2.2.2.1
      { mkDesk "c" (some "r") 1 with level := some 1 }
      (by decide) "r" (by decide),
   (hierarchy_level_structure pairList 10 [] [] (by decide)
      (by decide)).2.2.2.2⟩

/-!
## Claim C3: breadth-first traversal is bounded undirected reachability

Spec-side notions: two note ids are adjacent when some connection joins
them in either direction; `reachIn conns start k x` says `x` is within `k`
undirected hops of `start`.  The proof maintains the classic BFS
invariants: after `j` rounds the visited set is exactly the ≤-`j`-hop
ball, the frontier is inside it, and every visited non-frontier node has
all neighbours visited.
-/

/-- Undirected adjacency through the connection rows. -/
def adjacent (conns : List ConnRec) (y x : String) : Prop :=
  ∃ c ∈ conns, (c.from_note_id = y ∧ c.to_note_id = x)
    ∨ (c.from_note_id = x ∧ c.to_note_id = y)

/-- `x` lies within `k` undirected hops of `start`. -/
def reachIn (conns : List ConnRec) (start : String) : Nat → String → Prop
  | 0, x => x = start
  | k + 1, x => reachIn conns start k x
      ∨ ∃ y, reachIn conns start k y ∧ adjacent conns y x

/-- Visitedness after recording an endpoint. -/
theorem addEndpoint_fst (x : String) (st : List String × List String)
    (y : String) :
    y ∈ (addEndpoint x st).1 ↔ y ∈ st.1 ∨ y = x := by
  by_cases h : x ∈ st.1
  · rw [addEndpoint, if_pos h]
    constructor
    · exact Or.inl
    · rintro (hy | rfl)
      · exact hy
      · exact h
  · rw [addEndpoint, if_neg h]
    simp [List.mem_cons, or_comm]

/-- Newness after recording an endpoint (given the accumulated new ids are
already visited). -/
theorem addEndpoint_snd (x : String) (st : List String × List String)
    (y : String) :
    y ∈ (addEndpoint x st).2 ↔ y ∈ st.2 ∨ (y = x ∧ x ∉ st.1) := by
  by_cases h : x ∈ st.1
  · rw [addEndpoint, if_pos h]
    constructor
    · exact Or.inl
    · rintro (hy | ⟨rfl, hx⟩)
      · exact hy
      · exact absurd h hx
  · rw [addEndpoint, if_neg h]
    simp only [List.mem_append, List.mem_singleton]
    constructor
    · rintro (hy | rfl)
      · exact Or.inl hy
      · exact Or.inr ⟨rfl, h⟩
    · rintro (hy | ⟨rfl, -⟩)
      · exact Or.inl hy
      · exact Or.inr rfl

/-- `addEndpoint` preserves `new ⊆ visited`. -/
theorem addEndpoint_sub (x : String) (st : List String × List String)
    (hsub : ∀ y ∈ st.2, y ∈ st.1) :
    ∀ y ∈ (addEndpoint x st).2, y ∈ (addEndpoint x st).1 := by
  intro y hy
  rw [addEndpoint_fst]
  rcases (addEndpoint_snd x st y).mp hy with hy2 | ⟨rfl, -⟩
  · exact Or.inl (hsub y hy2)
  · exact Or.inr rfl

/-- The visited set only grows through `collectNew`. -/
theorem collectNew_mono :
    ∀ (cs : List ConnRec) (vis new : List String),
      ∀ y ∈ vis, y ∈ (collectNew cs vis new).1 := by
  intro cs
  induction cs with
  | nil => intro vis new y hy; exact hy
  | cons c rest ih =>
    intro vis new y hy
    rw [collectNew]
    apply ih
    rw [addEndpoint_fst, addEndpoint_fst]
    exact Or.inl (Or.inl hy)

/-- `collectNew` preserves `new ⊆ visited`. -/
theorem collectNew_sub :
    ∀ (cs : List ConnRec) (vis new : List String),
      (∀ y ∈ new, y ∈ vis) →
      ∀ y ∈ (collectNew cs vis new).2, y ∈ (collectNew cs vis new).1 := by
  intro cs
  induction cs with
  | nil => intro vis new hsub y hy; exact hsub y hy
  | cons c rest ih =>
    intro vis new hsub y hy
    rw [collectNew] at hy ⊢
    refine ih _ _ ?_ y hy
    exact addEndpoint_sub _ _ (addEndpoint_sub _ (vis, new) hsub)

/-- The accumulated new ids survive `collectNew`. -/
theorem collectNew_snd_mono :
    ∀ (cs : List ConnRec) (vis new : List String),
      ∀ y ∈ new, y ∈ (collectNew cs vis new).2 := by
  intro cs
  induction cs with
  | nil => intro vis new y hy; exact hy
  | cons c rest ih =>
    intro vis new y hy
    rw [collectNew]
    apply ih
    rw [addEndpoint_snd, addEndpoint_snd]
    exact Or.inl (Or.inl hy)

/-- After `collectNew`, visited is the old visited plus the new ids. -/
theorem collectNew_fst :
    ∀ (cs : List ConnRec) (vis new : List String),
      (∀ y ∈ new, y ∈ vis) →
      ∀ y, y ∈ (collectNew cs vis new).1
        ↔ y ∈ vis ∨ y ∈ (collectNew cs vis new).2 := by
  intro cs
  induction cs with
  | nil =>
    intro vis new hsub y
    constructor
    · exact Or.inl
    · rintro (hy | hy)
      · exact hy
      · exact hsub y hy
  | cons c rest ih =>
    intro vis new hsub y
    rw [collectNew]
    have hsub2 : ∀ z ∈ (addEndpoint c.to_note_id
        (addEndpoint c.from_note_id (vis, new))).2,
        z ∈ (addEndpoint c.to_note_id
          (addEndpoint c.from_note_id (vis, new))).1 :=
      addEndpoint_sub _ _ (addEndpoint_sub _ (vis, new) hsub)
    rw [ih _ _ hsub2 y, addEndpoint_fst, addEndpoint_fst]
    constructor
    · rintro (((hy | rfl) | rfl) | hy)
      · exact Or.inl hy
      · by_cases hv : c.from_note_id ∈ vis
        · exact Or.inl hv
        · refine Or.inr (collectNew_snd_mono rest _ _ _ ?_)
          rw [addEndpoint_snd]
          refine Or.inl ?_
          rw [addEndpoint_snd]
          exact Or.inr ⟨rfl, hv⟩
      · by_cases hv : c.to_note_id ∈ vis
        · exact Or.inl hv
        · refine Or.inr (collectNew_snd_mono rest _ _ _ ?_)
          rw [addEndpoint_snd]
          by_cases hv1 : c.to_note_id
              ∈ (addEndpoint c.from_note_id (vis, new)).1
          · rw [addEndpoint_fst] at hv1
            rcases hv1 with hv1 | heq
            · exact absurd hv1 hv
            · refine Or.inl ?_
              rw [addEndpoint_snd]
              exact Or.inr ⟨heq, heq ▸ hv⟩
          · exact Or.inr ⟨rfl, hv1⟩
      · exact Or.inr hy
    · rintro (hy | hy)
      · exact Or.inl (Or.inl (Or.inl hy))
      · exact Or.inr hy

/-- Every new id stems from an endpoint of a processed connection and was
not previously visited. -/
theorem collectNew_snd_src :
    ∀ (cs : List ConnRec) (vis new : List String),
      ∀ y ∈ (collectNew cs vis new).2,
        y ∈ new ∨ (y ∉ vis ∧ ∃ c ∈ cs,
          c.from_note_id = y ∨ c.to_note_id = y) := by
  intro cs
  induction cs with
  | nil => intro vis new y hy; exact Or.inl hy
  | cons c rest ih =>
    intro vis new y hy
    rw [collectNew] at hy
    rcases ih _ _ y hy with hy2 | ⟨hnv, d, hd, hde⟩
    · rw [addEndpoint_snd] at hy2
      rcases hy2 with hy3 | ⟨rfl, hto⟩
      · rw [addEndpoint_snd] at hy3
        rcases hy3 with hy4 | ⟨rfl, hfv⟩
        · exact Or.inl hy4
        · exact Or.inr ⟨hfv, c, List.mem_cons_self c rest, Or.inl rfl⟩
      · rw [addEndpoint_fst] at hto
        push_neg at hto
        exact Or.inr ⟨hto.1, c, List.mem_cons_self c rest, Or.inr rfl⟩
    · refine Or.inr ⟨?_, d, List.mem_cons_of_mem c hd, hde⟩
      intro hv
      apply hnv
      rw [addEndpoint_fst, addEndpoint_fst]
      exact Or.inl (Or.inl hv)

/-- Both endpoints of every processed connection end up visited. -/
theorem collectNew_endpoints :
    ∀ (cs : List ConnRec) (vis new : List String), ∀ c ∈ cs,
      c.from_note_id ∈ (collectNew cs vis new).1
        ∧ c.to_note_id ∈ (collectNew cs vis new).1 := by
  intro cs
  induction cs with
  | nil => intro vis new c hc; simp at hc
  | cons d rest ih =>
    intro vis new c hc
    rcases List.mem_cons.mp hc with rfl | hc2
    · rw [collectNew]
      constructor
      · apply collectNew_mono
        rw [addEndpoint_fst, addEndpoint_fst]
        exact Or.inl (Or.inr rfl)
      · apply collectNew_mono
        rw [addEndpoint_fst]
        exact Or.inr rfl
    · rw [collectNew]
      exact ih _ _ c hc2

/-- Membership in a round's matched connections. -/
theorem roundConns_mem (conns : List ConnRec) (cur : List String)
    (c : ConnRec) :
    c ∈ roundConns conns cur
      ↔ c ∈ conns ∧ (c.from_note_id ∈ cur ∨ c.to_note_id ∈ cur) := by
  simp only [roundConns, List.mem_append, List.mem_filter,
    decide_eq_true_eq]
  tauto

/-- The new ids of one round are exactly the unvisited undirected
neighbours of the frontier. -/
theorem round_new_char (conns : List ConnRec) (cur vis : List String)
    (hcv : ∀ x ∈ cur, x ∈ vis) (x : String) :
    x ∈ (collectNew (roundConns conns cur) vis []).2
      ↔ x ∉ vis ∧ ∃ y ∈ cur, adjacent conns y x := by
  constructor
  · intro hx
    rcases collectNew_snd_src _ _ _ x hx with hx2 | ⟨hnv, c, hc, hce⟩
    · simp at hx2
    · obtain ⟨hcc, hcur⟩ := (roundConns_mem conns cur c).mp hc
      refine ⟨hnv, ?_⟩
      rcases hce with rfl | rfl
      · rcases hcur with hf | ht
        · exact absurd (hcv _ hf) hnv
        · exact ⟨c.to_note_id, ht, c, hcc, Or.inr ⟨rfl, rfl⟩⟩
      · rcases hcur with hf | ht
        · exact ⟨c.from_note_id, hf, c, hcc, Or.inl ⟨rfl, rfl⟩⟩
        · exact absurd (hcv _ ht) hnv
  · rintro ⟨hnv, y, hy, c, hcc, hdir⟩
    have hcr : c ∈ roundConns conns cur := by
      rw [roundConns_mem]
      rcases hdir with ⟨hf, ht⟩ | ⟨hf, ht⟩
      · exact ⟨hcc, Or.inl (hf ▸ hy)⟩
      · exact ⟨hcc, Or.inr (ht ▸ hy)⟩
    have hend := collectNew_endpoints (roundConns conns cur) vis [] c hcr
    have hx1 : x ∈ (collectNew (roundConns conns cur) vis []).1 := by
      rcases hdir with ⟨-, ht⟩ | ⟨hf, -⟩
      · exact ht ▸ hend.2
      · exact hf ▸ hend.1
    rcases (collectNew_fst _ _ _ (by simp) x).mp hx1 with hv | hn
    · exact absurd hv hnv
    · exact hn

/-- Reachability only grows with the hop budget. -/
theorem reachIn_add (conns : List ConnRec) (start : String) (j : Nat)
    (x : String) (h : reachIn conns start j x) :
    ∀ m, reachIn conns start (j + m) x := by
  intro m
  induction m with
  | zero => exact h
  | succ m ih => exact Or.inl ih

/-- Once one extra hop adds nothing, no number of extra hops does. -/
theorem reachIn_stable (conns : List ConnRec) (start : String) (j : Nat)
    (h : ∀ x, reachIn conns start (j + 1) x → reachIn conns start j x) :
    ∀ m x, reachIn conns start (j + m) x → reachIn conns start j x := by
  intro m
  induction m with
  | zero => intro x hx; exact hx
  | succ m ih =>
    intro x hx
    rcases hx with hx | ⟨y, hy, hadj⟩
    · exact ih x hx
    · exact h x (Or.inr ⟨y, ih y hy, hadj⟩)

/-- The visited set only grows through the rounds. -/
theorem bfsLoop_vis_mono (notesT : List NoteRec) (conns : List ConnRec) :
    ∀ k cur vis accC accN, ∀ x ∈ vis,
      x ∈ (bfsLoop notesT conns k cur vis accC accN).2.2 := by
  intro k
  induction k with
  | zero => intro cur vis _ _ x hx; exact hx
  | succ k ih =>
    intro cur vis accC accN x hx
    rw [bfsLoop]
    by_cases hc : cur.isEmpty
    · rw [if_pos hc]; exact hx
    · rw [if_neg hc]
      exact ih _ _ _ _ x (collectNew_mono _ _ _ x hx)

/-- The connected-notes accumulator collects exactly the note rows whose id
was newly visited during the remaining rounds. -/
theorem bfsLoop_notes (notesT : List NoteRec) (conns : List ConnRec) :
    ∀ k cur vis accC accN, (∀ x ∈ cur, x ∈ vis) →
      ∀ nb, nb ∈ (bfsLoop notesT conns k cur vis accC accN).2.1
        ↔ nb ∈ accN ∨ ∃ n ∈ notesT, nb = noteBrief n
            ∧ n.id ∈ (bfsLoop notesT conns k cur vis accC accN).2.2
            ∧ n.id ∉ vis := by
  intro k
  induction k with
  | zero =>
    intro cur vis accC accN hcv nb
    constructor
    · exact Or.inl
    · rintro (h | ⟨n, hn, rfl, hin, hout⟩)
      · exact h
      · exact absurd hin hout
  | succ k ih =>
    intro cur vis accC accN hcv nb
    rw [bfsLoop]
    by_cases hc : cur.isEmpty
    · rw [if_pos hc]
      constructor
      · exact Or.inl
      · rintro (h | ⟨n, hn, rfl, hin, hout⟩)
        · exact h
        · exact absurd hin hout
    · rw [if_neg hc]
      show nb ∈ (bfsLoop notesT conns k
          (collectNew (roundConns conns cur) vis []).2
          (collectNew (roundConns conns cur) vis []).1
          (accC ++ roundConns conns cur)
          (accN ++ (notesT.filter (fun n =>
            n.id ∈ (collectNew (roundConns conns cur) vis []).2)).map
              noteBrief)).2.1 ↔ _
      have hsub : ∀ x ∈ (collectNew (roundConns conns cur) vis []).2,
          x ∈ (collectNew (roundConns conns cur) vis []).1 :=
        collectNew_sub _ _ _ (by simp)
      have hnewdisj : ∀ x ∈ (collectNew (roundConns conns cur) vis []).2,
          x ∉ vis := by
        intro x hx
        rcases collectNew_snd_src _ _ _ x hx with hx2 | ⟨hnv, -⟩
        · simp at hx2
        · exact hnv
      have hvis' : ∀ x, x ∈ (collectNew (roundConns conns cur) vis []).1
          ↔ x ∈ vis ∨ x ∈ (collectNew (roundConns conns cur) vis []).2 :=
        collectNew_fst _ _ _ (by simp)
      rw [ih _ _ _ _ hsub nb]
      constructor
      · rintro (hacc | ⟨n, hn, rfl, hin, hout⟩)
        · rcases List.mem_append.mp hacc with h1 | h2
          · exact Or.inl h1
          · obtain ⟨n, hn, rfl⟩ := List.mem_map.mp h2
            have hfil := List.mem_filter.mp hn
            have hid : n.id ∈ (collectNew (roundConns conns cur) vis []).2 :=
              of_decide_eq_true hfil.2
            refine Or.inr ⟨n, hfil.1, rfl, ?_, hnewdisj n.id hid⟩
            exact bfsLoop_vis_mono notesT conns k _ _ _ _ n.id
              (hsub n.id hid)
        · refine Or.inr ⟨n, hn, rfl, hin, ?_⟩
          intro hv
          exact hout ((hvis' n.id).mpr (Or.inl hv))
      · rintro (hacc | ⟨n, hn, rfl, hin, hout⟩)
        · exact Or.inl (List.mem_append.mpr (Or.inl hacc))
        · by_cases hv' : n.id ∈ (collectNew (roundConns conns cur) vis []).1
          · rcases (hvis' n.id).mp hv' with hv | hnew
            · exact absurd hv hout
            · refine Or.inl (List.mem_append.mpr (Or.inr ?_))
              exact List.mem_map.mpr ⟨n, List.mem_filter.mpr
                ⟨hn, decide_eq_true hnew⟩, rfl⟩
          · exact Or.inr ⟨n, hn, rfl, hin, hv'⟩

/-- BFS invariant: after the remaining rounds, the visited set is exactly
the bounded-hop reachability ball.  `j` counts the rounds already done:
visited is the ≤-`j` ball, the frontier is visited, every visited
non-frontier node has all neighbours visited. -/
theorem bfsLoop_reach (notesT : List NoteRec) (conns : List ConnRec)
    (start : String) :
    ∀ k cur vis accC accN j,
      (∀ x, x ∈ vis ↔ reachIn conns start j x) →
      (∀ x ∈ cur, x ∈ vis) →
      (∀ y ∈ vis, y ∉ cur → ∀ x, adjacent conns y x → x ∈ vis) →
      ∀ x, x ∈ (bfsLoop notesT conns k cur vis accC accN).2.2
        ↔ reachIn conns start (j + k) x := by
  intro k
  induction k with
  | zero => intro cur vis accC accN j h1 _ _ x; exact h1 x
  | succ k ih =>
    intro cur vis accC accN j h1 h2 h3 x
    rw [bfsLoop]
    by_cases hc : cur.isEmpty
    · rw [if_pos hc]
      have hcur : cur = [] := List.isEmpty_iff.mp hc
      have hstable : ∀ z, reachIn conns start (j + 1) z →
          reachIn conns start j z := by
        intro z hz
        rcases hz with hz | ⟨y, hy, hadj⟩
        · exact hz
        · have hyv : y ∈ vis := (h1 y).mpr hy
          have hync : y ∉ cur := by simp [hcur]
          exact (h1 z).mp (h3 y hyv hync z hadj)
      constructor
      · intro hx
        exact reachIn_add conns start j x ((h1 x).mp hx) (k + 1)
      · intro hx
        exact (h1 x).mpr (reachIn_stable conns start j hstable (k + 1) x hx)
    · rw [if_neg hc]
      show x ∈ (bfsLoop notesT conns k
          (collectNew (roundConns conns cur) vis []).2
          (collectNew (roundConns conns cur) vis []).1
          (accC ++ roundConns conns cur)
          (accN ++ (notesT.filter (fun n =>
            n.id ∈ (collectNew (roundConns conns cur) vis []).2)).map
              noteBrief)).2.2 ↔ _
      have hvis' : ∀ z, z ∈ (collectNew (roundConns conns cur) vis []).1
          ↔ z ∈ vis ∨ z ∈ (collectNew (roundConns conns cur) vis []).2 :=
        collectNew_fst _ _ _ (by simp)
      have hchar : ∀ z, z ∈ (collectNew (roundConns conns cur) vis []).2
          ↔ z ∉ vis ∧ ∃ y ∈ cur, adjacent conns y z :=
        round_new_char conns cur vis h2
      have hI1 : ∀ z, z ∈ (collectNew (roundConns conns cur) vis []).1
          ↔ reachIn conns start (j + 1) z := by
        intro z
        rw [hvis' z, hchar z]
        constructor
        · rintro (hv | ⟨-, y, hy, hadj⟩)
          · exact Or.inl ((h1 z).mp hv)
          · exact Or.inr ⟨y, (h1 y).mp (h2 y hy), hadj⟩
        · rintro (hz | ⟨y, hy, hadj⟩)
          · exact Or.inl ((h1 z).mpr hz)
          · have hyv : y ∈ vis := (h1 y).mpr hy
            by_cases hyc : y ∈ cur
            · by_cases hzv : z ∈ vis
              · exact Or.inl hzv
              · exact Or.inr ⟨hzv, y, hyc, hadj⟩
            · exact Or.inl (h3 y hyv hyc z hadj)
      have hI2 : ∀ z ∈ (collectNew (roundConns conns cur) vis []).2,
          z ∈ (collectNew (roundConns conns cur) vis []).1 :=
        collectNew_sub _ _ _ (by simp)
      have hI3 : ∀ y ∈ (collectNew (roundConns conns cur) vis []).1,
          y ∉ (collectNew (roundConns conns cur) vis []).2 →
          ∀ z, adjacent conns y z →
            z ∈ (collectNew (roundConns conns cur) vis []).1 := by
        intro y hy hynew z hadj
        rcases (hvis' y).mp hy with hyv | hyn
        · by_cases hyc : y ∈ cur
          · obtain ⟨c, hcc, hdir⟩ := hadj
            have hcr : c ∈ roundConns conns cur := by
              rw [roundConns_mem]
              rcases hdir with ⟨hf, -⟩ | ⟨-, ht⟩
              · exact ⟨hcc, Or.inl (hf ▸ hyc)⟩
              · exact ⟨hcc, Or.inr (ht ▸ hyc)⟩
            have hend := collectNew_endpoints (roundConns conns cur) vis
              [] c hcr
            rcases hdir with ⟨-, ht⟩ | ⟨hf, -⟩
            · exact ht ▸ hend.2
            · exact hf ▸ hend.1
          · exact (hvis' z).mpr
              (Or.inl (h3 y hyv hyc z hadj))
        · exact absurd hyn hynew
      have hrec := ih _ _ (accC ++ roundConns conns cur)
        (accN ++ (notesT.filter (fun n =>
          n.id ∈ (collectNew (roundConns conns cur) vis []).2)).map
            noteBrief) (j + 1) hI1 hI2 hI3 x
      rw [hrec]
      have : j + 1 + k = j + (k + 1) := by omega
      rw [this]

/-- C3 (confirmed).  When the start note resolves, the returned
`connected_notes` are exactly the note rows whose id lies within the
clamped depth's undirected hop distance of the start id, the root itself
excluded. -/
theorem findConnected_reach (notesT : List NoteRec) (conns : List ConnRec)
    (noteId : String) (depth : Nat) (res : ConnResult)
    (h : findConnectedNotes notesT conns noteId depth = some res) :
    ∀ nb, nb ∈ res.connected_notes
      ↔ ∃ n ∈ notesT, nb = noteBrief n
          ∧ reachIn conns noteId (min (max 1 depth) 5) n.id
          ∧ n.id ≠ noteId := by
  simp only [findConnectedNotes] at h
  cases hf : notesT.find? (fun n => n.id = noteId) with
  | none => rw [hf] at h; exact absurd h (by simp)
  | some start =>
    rw [hf] at h
    simp only [Option.some.injEq] at h
    subst h
    intro nb
    have hn := bfsLoop_notes notesT conns (min (max 1 depth) 5) [noteId]
      [noteId] [] [] (fun x hx => hx) nb
    have hr := bfsLoop_reach notesT conns noteId (min (max 1 depth) 5)
      [noteId] [noteId] [] [] 0
      (by intro z; simp [reachIn])
      (fun x hx => hx)
      (by
        intro y hy hyc
        exact absurd hy hyc)
    constructor
    · intro hmem
      rcases hn.mp hmem with habs | ⟨n, hnT, rfl, hfin, hnin⟩
      · simp at habs
      · refine ⟨n, hnT, rfl, ?_, ?_⟩
        · have := (hr n.id).mp hfin
          simpa using this
        · intro heq
          exact hnin (by simp [heq])
    · rintro ⟨n, hnT, rfl, hreach, hne⟩
      apply hn.mpr
      refine Or.inr ⟨n, hnT, rfl, ?_, by simpa using hne⟩
      exact (hr n.id).mpr (by simpa using hreach)

/-- Fixture: five notes in a linear chain. -/
def chNotes : List NoteRec :=
  [{ id := "m1", title := "N1", desktop_id := "d", z_index := 0 },
   { id := "m2", title := "N2", desktop_id := "d", z_index := 1 },
   { id := "m3", title := "N3", desktop_id := "d", z_index := 2 },
   { id := "m4", title := "N4", desktop_id := "d", z_index := 3 },
   { id := "m5", title := "N5", desktop_id := "d", z_index := 4 }]

/-- Fixture: the chain connections m1→m2→m3→m4→m5. -/
def chConns : List ConnRec :=
  [{ id := "k1", from_note_id := "m1", to_note_id := "m2",
     desktop_id := "d" },
   { id := "k2", from_note_id := "m2", to_note_id := "m3",
     desktop_id := "d" },
   { id := "k3", from_note_id := "m3", to_note_id := "m4",
     desktop_id := "d" },
   { id := "k4", from_note_id := "m4", to_note_id := "m5",
     desktop_id := "d" }]

/-- The traversal result from m1 at depth 2 over the chain: exactly
{N2, N3} connected, N4 and N5 absent. -/
def resChain : ConnResult :=
  { root := { id := "m1", title := "N1", desktop_id := "d" },
    connected_notes := [{ id := "m2", title := "N2", desktop_id := "d" },
                        { id := "m3", title := "N3", desktop_id := "d" }],
    connections := [{ id := "k1", from_note_id := "m1",
                      to_note_id := "m2", desktop_id := "d" },
                    { id := "k2", from_note_id := "m2",
                      to_note_id := "m3", desktop_id := "d" }] }

/-- C3 witness: the reachability theorem applied to the chain fixture —
N2 lies in the depth-2 traversal from N1. -/
theorem findConnected_reach_witness :
    ({ id := "m2", title := "N2", desktop_id := "d" } : NoteBrief)
      ∈ resChain.connected_notes :=
  (findConnected_reach chNotes chConns "m1" 2 resChain (by decide)
      { id := "m2", title := "N2", desktop_id := "d" }).mpr
    ⟨{ id := "m2", title := "N2", desktop_id := "d", z_index := 1 },
      by decide, rfl,
      Or.inl (Or.inr ⟨"m1", rfl, by unfold adjacent; decide⟩),
      by decide⟩

end Deskflow
